import Mathlib

/-!
# Verification of symbolator.py's symbol layout and classification engine

This file is a shallow embedding, in Lean 4, of the core of `symbolator.py`
(version 1.0.2): the pin classification (`make_section`), section
partitioning and symbol assembly (`make_symbol`), the geometric layout
(`PinSection.min_width`, `PinSection.draw`, `Symbol.draw`,
`HdlSymbol.draw`) and the type canonicalizer (`reformat_array_params`).

Machine floats of the Python code are modelled by `ℚ` (the code only adds,
subtracts, halves and floor-divides layout quantities, so this is exact).
Python exceptions (`TypeError` on `'[' in None`, `ValueError` on `max()`
of an empty sequence, `IndexError` on `zip(*[])[0]`) are modelled by
`Option`: a `none` result models the call raising.

External collaborators (the cairo/svg drawing surface's `text_bbox`
font-metric query, the bounding box that the nucanvas backend computes for
a drawn group, and the sinebow color module) are modelled as parameters
(`Canvas`, `Palette`): the embedded functions are functions of those
oracles exactly the way the Python code is a client of those modules.

Strings are modelled by their character lists.  The embedding of the two
regular expressions that rewrite text (`([^(]+)\((.*)\)$` and the split
logic of `reformat_array_params`) is exact for strings that do not contain
a newline character (the Python dot and `$` treat newlines specially;
no data type or pin name produced by the program contains one).
-/

namespace Symbolator

/-- `begins p s` decides whether the character list `p` is an initial
segment of `s` (Python's `str.startswith`, and the single-step test used
by `str.replace`'s left-to-right scan). -/
def begins : List Char → List Char → Bool
  | [], _ => true
  | _ :: _, [] => false
  | p :: ps, c :: cs => p == c && begins ps cs

/-- `occurs p s` decides whether `p` occurs as a contiguous run inside `s`
(Python's `pat in s` substring test). -/
def occurs (p : List Char) : List Char → Bool
  | [] => p.isEmpty
  | c :: cs => begins p (c :: cs) || occurs p cs

/-- Fueled core of Python's `str.replace(pat, rep)`: scan left to right,
replacing non-overlapping occurrences of `pat` by `rep`.  One unit of
fuel is spent per character position scanned, so fuel = length of the
scanned list makes the fuel inexhaustible (a nonempty match consumes at
least one character). -/
def replaceListF (p r : List Char) : ℕ → List Char → List Char
  | _, [] => []
  | 0, s => s
  | fuel + 1, c :: cs =>
    if p ≠ [] ∧ begins p (c :: cs) = true then
      r ++ replaceListF p r fuel ((c :: cs).drop p.length)
    else
      c :: replaceListF p r fuel cs

/-- Python's `str.replace(pat, rep)` on character lists. -/
def replaceList (p r s : List Char) : List Char :=
  replaceListF p r s.length s

/-- The effect of `re.sub(r'([^(]+)\((.*)\)$', r'\1[\2]', s)` from
`reformat_array_params` (line 449 of symbolator.py).  The pattern matches
(anchored at the end of the string) iff the string ends in `)` and some
`(` is preceded somewhere by a non-`(` character; the leftmost match
starts right after the initial run of `(` characters, group 1 is the
non-`(` run up to the first subsequent `(`, and the greedy `.*` makes
group 2 everything between that `(` and the final `)`. -/
def regexSubList (s : List Char) : List Char :=
  match (s.dropWhile (· == '(')).dropWhile (· != '(') with
  | [] => s
  | _ :: rest3 =>
    if s.getLast? = some ')' then
      s.takeWhile (· == '(') ++ (s.dropWhile (· == '(')).takeWhile (· != '(')
        ++ '[' :: (rest3.dropLast ++ [']'])
    else s

/-- The final stage of `reformat_array_params` (lines 452-455 of
symbolator.py): `pieces = data_type.split('[')`; when there is more than
one piece, the result is `pieces[0] + '[' + pieces[1].replace(' ', '')`
(pieces past the second `[` are dropped). -/
def splitStageList (s : List Char) : List Char :=
  if '[' ∈ s then
    s.takeWhile (· != '[') ++ '[' ::
      ((((s.dropWhile (· != '[')).tail).takeWhile (· != '[')).filter (· != ' '))
  else s

/-- The per-string body of `reformat_array_params` (lines 446-455 of
symbolator.py): replace ` downto ` by `:` and ` to ` by `➙` (U+2799),
rewrite a trailing parenthesized group into brackets, and strip the
spaces of the first bracketed segment. -/
def reformatType (s : String) : String :=
  ⟨splitStageList (regexSubList
    (replaceList " to ".toList "➙".toList
      (replaceList " downto ".toList ":".toList s.toList)))⟩

/-- `Parameter` of symbolator.py: a port or generic.  `mode` is a plain
string exactly as the parser delivers it; `data_type` and
`default_value` are optional (`None` in Python). -/
structure Parameter where
  name : String
  mode : String
  data_type : Option String
  default_value : Option String
deriving DecidableEq, Repr

/-- `Component` of symbolator.py.  The `sections` metacomment dictionary
(port index → section marker string) is modelled as a function to
`Option String` (`none` = index not present in the dict). -/
structure Component where
  name : String
  package : Option String
  ports : List Parameter
  generics : List Parameter
  sections : ℕ → Option String

/-- `reformat_array_params` (lines 441-457 of symbolator.py), as a
function on components: every **port** whose `data_type` is not `None`
has it rewritten by `reformatType`; generics are not touched by the
loop (`for p in vo.ports`). -/
def reformat_array_params (vo : Component) : Component :=
  { vo with ports := vo.ports.map (fun p =>
      { p with data_type := p.data_type.map reformatType }) }

/-! ## Pin classification (`make_section`, lines 315-362) -/

/-- RGB color tuple.  Concrete colors computed by the external
`nucanvas.color.sinebow` module are supplied through a `Palette`. -/
def Color : Type := ℕ × ℕ × ℕ
deriving DecidableEq, Repr

/-- The colors that the code obtains from the external sinebow module:
`classColors` models the `class_colors` dict of `PinSection.__init__`
(lines 161-165, `sinebow.lighten(sinebow.sinebow ...)` for the keys
`clocks`/`data`/`control`, `none` for any other key) and `seq k` models
the `k`-th value of `sinebow.lighten(next(color_seq), 0.75)` drawn in
`make_symbol` (line 393). -/
structure Palette where
  classColors : String → Option Color
  seq : ℕ → Color

/-- `Pin` of symbolator.py (constructor defaults: side `'l'`, all flags
false).  The per-instance constants `pin_length = 20`, `bubble_rad = 3`,
`padding = 10` are fixed in `__init__` and never changed, so they are
modelled as the constants `Pin.pin_length` etc. below. -/
structure Pin where
  text : String
  side : Char
  bubble : Bool
  clocked : Bool
  bus : Bool
  bidir : Bool
  data_type : Option String
deriving DecidableEq, Repr

def Pin.pin_length : ℚ := 20

def Pin.bubble_rad : ℚ := 3

def Pin.padding : ℚ := 10

/-- `endsList w l` decides whether `w` is a final segment of `l`
(Python's `str.endswith`, and the regex `...$` suffix anchor). -/
def endsList (w l : List Char) : Bool :=
  begins w.reverse l.reverse

/-- The `clock` entry of `pin_patterns` (line 346): the regex
`(^cl(oc)?k)|(cl(oc)?k$)` with `re.IGNORECASE` searched against the pin
name, i.e. a case-insensitive `clk`/`clock` prefix or suffix. -/
def pinPatternClock (name : String) : Bool :=
  let l := name.toList.map Char.toLower
  begins "clk".toList l || begins "clock".toList l ||
    endsList "clk".toList l || endsList "clock".toList l

/-- The `bubble` entry of `pin_patterns` (line 347): the regex `_[nb]$`
with `re.IGNORECASE`, i.e. a case-insensitive `_n`/`_b` suffix. -/
def pinPatternBubble (name : String) : Bool :=
  let l := name.toList.map Char.toLower
  endsList "_n".toList l || endsList "_b".toList l

/-- The `bus` entry of `pin_patterns` (line 348): the regex `(\[.*\]$)`
searched in the name, i.e. the name ends in `]` and contains a `[`
(which is then necessarily before the final `]`). -/
def pinPatternBus (name : String) : Bool :=
  endsList "]".toList name.toList && name.toList.contains '['

/-- Mode normalization of `make_section` (lines 326-332): lowercase,
then the Verilog synonyms `input`/`output` collapse to `in`/`out`. -/
def normMode (mode : String) : String :=
  let pdir : String := ⟨mode.toList.map Char.toLower⟩
  if pdir = "input" then "in" else if pdir = "output" then "out" else pdir

/-- Side selection of `make_section` (lines 334-338).  Python's
`pdir in ('in')` is a **substring** test against the string `'in'`
(the parentheses do not make a tuple), hence the `occurs` test; when
neither branch fires the `side` variable keeps the value left over from
the previous loop iteration (`prev`). -/
def sideOf (pdir : String) (prev : Char) : Char :=
  if occurs pdir.toList "in".toList then 'l'
  else if pdir = "out" || pdir = "inout" then 'r'
  else prev

/-- One iteration of the `make_section` loop (lines 320-360) for
parameter `p`, entered with the `side` variable equal to `prev`.
Returns the created `Pin` together with the value the `side` variable
has after the iteration.  The first statement that touches the data
type is `bus = '[' in p.data_type` (line 324), which raises `TypeError`
when `data_type` is `None` — modelled by `none`. -/
def makePinStep (no_type : Bool) (prev : Char) (p : Parameter) : Option (Pin × Char) :=
  match p.data_type with
  | none => none
  | some dtRaw =>
    let data_type := if no_type then none else some dtRaw
    let bus := dtRaw.toList.contains '['
    let pdir := normMode p.mode
    let side := sideOf pdir prev
    some ({ text := p.name
            side := side
            bubble := pinPatternBubble p.name
            clocked := pdir == "in" && pinPatternClock p.name
            bus := bus || pinPatternBus p.name
            bidir := pdir == "inout"
            data_type := data_type }, side)

/-- The whole `make_section` loop over the pin list, threading the
`side` variable (initialized to `'l'` on line 318). -/
def processPins (no_type : Bool) : Char → List Parameter → Option (List Pin)
  | _, [] => some []
  | prev, p :: ps =>
    match makePinStep no_type prev p with
    | none => none
    | some (pin, side) => (processPins no_type side ps).map (pin :: ·)

/-- `PinSection` data (fields set by `__init__` and `add_pin`).  The
constants `spacing = 20`, `padding = 5`, `show_name = True` are fixed at
construction and never changed; they are the constants
`PinSection.spacing` etc. below.  `sectKind` is the `sect_class`
attribute of the Python object. -/
structure PinSection where
  name : Option String
  sectKind : Option String
  fill : Option Color
  line_color : Color
  pins : List Pin
deriving DecidableEq, Repr

def PinSection.spacing : ℚ := 20

def PinSection.padding : ℚ := 5

/-- `PinSection.__init__`'s name parsing (lines 153-159): the regex
`^(\w+)\s*\|(.*)$` splits a marker of the form `<class>|<label>` into a
lowercased class tag and a stripped label (an empty label becomes
`None`).  Implemented directly: a nonempty run of word characters, a
run of whitespace, a `|`, then the rest of the string. -/
def parseSectName (s : String) : Option (String × String) :=
  let cs := s.toList
  let w := cs.takeWhile (fun c => c.isAlphanum || c == '_')
  let rest := (cs.drop w.length).dropWhile (·.isWhitespace)
  match w, rest with
  | [], _ => none
  | _ :: _, '|' :: label => some (⟨w⟩, ⟨label⟩)
  | _ :: _, _ => none

/-- `PinSection.__init__` (lines 142-168): store the fill and line
color, parse a `<class>|<label>` marker name, and override the fill
from the palette's class colors when the class tag is known. -/
def mkPinSection (pal : Palette) (name : Option String) (fill : Option Color)
    (line_color : Color) : PinSection :=
  let parsed : Option String × Option String :=
    match name with
    | none => (none, none)
    | some n =>
      match parseSectName n with
      | none => (some n, none)
      | some (cls, label) =>
        let label : String :=
          ⟨((label.toList.dropWhile (·.isWhitespace)).reverse.dropWhile
            (·.isWhitespace)).reverse⟩
        (if label.length = 0 then none else some label,
          some ⟨cls.toList.map Char.toLower⟩)
  let sectKind := parsed.2
  let fill :=
    match sectKind with
    | some k => match pal.classColors k with
                | some c => some c
                | none => fill
    | none => fill
  { name := parsed.1, sectKind := sectKind, fill := fill,
    line_color := line_color, pins := [] }

/-- `make_section` (lines 315-362): build the section object, then run
the classification loop, appending one pin per parameter.  `none`
models the `TypeError` raised on a parameter whose `data_type` is
`None`. -/
def make_section (pal : Palette) (sname : Option String) (sect_pins : List Parameter)
    (fill : Option Color) (no_type : Bool) : Option PinSection :=
  (processPins no_type 'l' sect_pins).map
    (fun pins => { mkPinSection pal sname fill (0, 0, 0) with pins := pins })

/-! ## Section partitioning (`make_symbol`, lines 375-390) -/

/-- The port-partition loop of `make_symbol` (lines 379-390), with the
loop state made explicit: `i` is the index of the next port, `sname`
the current `sect_name`, `cur` the section under construction and `acc`
the finished sections. -/
def msLoop (m : ℕ → Option String) :
    ℕ → Option String → List Parameter → List (Option String × List Parameter) →
    List Parameter → List (Option String × List Parameter)
  | _, sname, cur, acc, [] => if cur.isEmpty then acc else acc ++ [(sname, cur)]
  | i, sname, cur, acc, p :: ps =>
    if (m i).isSome ∧ cur ≠ [] then
      msLoop m (i + 1) (m i) [p] (acc ++ [(sname, cur)]) ps
    else
      msLoop m (i + 1) sname (cur ++ [p]) acc ps

/-- The port partition computed by `make_symbol`: walk the ports with
`sect_name` initialized to `comp.sections[0] if 0 in comp.sections else
None` (line 381). -/
def make_sections (m : ℕ → Option String) (ports : List Parameter) :
    List (Option String × List Parameter) :=
  msLoop m 0 (m 0) [] [] ports

/-! ## Geometry (`PinSection.min_width`/`draw`, `Symbol.draw`,
`HdlSymbol.draw`, lines 185-313) -/

/-- Font parameters, e.g. `('Times', 12, 'italic')`. -/
structure Font where
  family : String
  size : ℕ
  style : String

/-- The external drawing surface, reduced to what the layout code
queries from it: `textBBox` models `c.surf.text_bbox(text, font)`
(returning `(x0, y0, x1, y1, baseline)`), `defFont` models
`c.surf.def_styles.font`, and `sectGroupBounds s w` models the vertical
extent `(bbox[1], bbox[3])` that the nucanvas backend reports for the
group of shapes drawn by `s.draw(..., w, c)` (used by `Symbol.draw` to
advance its y offset, line 267). -/
structure Canvas where
  textBBox : String → Font → ℚ × ℚ × ℚ × ℚ × ℚ
  defFont : Font
  sectGroupBounds : PinSection → ℚ → ℚ × ℚ

/-- An axis-aligned bounding box `(x0, y0, x1, y1)`. -/
structure Box where
  x0 : ℚ
  y0 : ℚ
  x1 : ℚ
  y1 : ℚ
deriving DecidableEq, Repr

/-- Python's `max` over a possibly-empty list, with the
`try ... except ValueError: 0` idiom of `PinSection.min_width`
(lines 186-194): the maximum, or `0` for an empty list. -/
def pyMax0 : List ℚ → ℚ
  | [] => 0
  | x :: xs => xs.foldl max x

/-- Python's `max` over a generator: `none` models the `ValueError`
raised on an empty sequence. -/
def pyMaxOpt : List ℚ → Option ℚ
  | [] => none
  | x :: xs => some (xs.foldl max x)

/-- The width `abs(x1 - x0)` of a text bounding box
`(x0, y0, x1, y1, baseline)`. -/
def bboxWidth (tb : ℚ × ℚ × ℚ × ℚ × ℚ) : ℚ := |tb.2.2.1 - tb.1|

/-- The height `y1 - y0` of a text bounding box
`(x0, y0, x1, y1, baseline)`. -/
def bboxHeight (tb : ℚ × ℚ × ℚ × ℚ × ℚ) : ℚ := tb.2.2.2.1 - tb.2.1

/-- `Pin.text_width` (lines 134-137): `self.padding` (10) plus the width
`abs(x1 - x0)` of the label's text bounding box. -/
def Pin.text_width (p : Pin) (c : Canvas) (font : Font) : ℚ :=
  Pin.padding + bboxWidth (c.textBBox p.text font)

/-- `PinSection.left_pins` (line 175). -/
def PinSection.left_pins (s : PinSection) : List Pin :=
  s.pins.filter (·.side == 'l')

/-- `PinSection.right_pins` (line 179). -/
def PinSection.right_pins (s : PinSection) : List Pin :=
  s.pins.filter (·.side == 'r')

/-- `PinSection.rows` (line 183). -/
def PinSection.rows (s : PinSection) : ℕ :=
  max s.left_pins.length s.right_pins.length

/-- `PinSection.min_width` (lines 185-206): left and right column
widths (0 when a column is empty), the section name's width folded into
the left column when that column is nonempty and into the right column
otherwise, plus the section padding (5). -/
def PinSection.min_width (s : PinSection) (c : Canvas) (font : Font) : ℚ :=
  let lmax := pyMax0 (s.left_pins.map (·.text_width c font))
  let rmax := pyMax0 (s.right_pins.map (·.text_width c font))
  match s.name with
  | none => lmax + rmax + PinSection.padding
  | some nm =>
    let name_width := PinSection.padding + bboxWidth (c.textBBox nm font)
    if lmax > 0 then max lmax name_width + rmax + PinSection.padding
    else lmax + max rmax name_width + PinSection.padding

/-- The title offset `toff` of `PinSection.draw` (lines 213-218):
the height of the title text's bounding box in the font
`('Times', 12, 'italic')` when the section shows a nonempty name. -/
def PinSection.toff (s : PinSection) (c : Canvas) : ℚ :=
  match s.name with
  | some nm =>
    if nm.length > 0 then bboxHeight (c.textBBox nm ⟨"Times", 12, "italic"⟩)
    else 0
  | none => 0

/-- The bounding box `(x, y+top, x+width, y+bot)` returned by
`PinSection.draw` (lines 220-240): `top = -spacing/2 - padding`,
`bot = toff - spacing/2 + rows*spacing + padding`. -/
def PinSection.drawBox (s : PinSection) (x y width : ℚ) (c : Canvas) : Box :=
  let toff := s.toff c
  let top := -PinSection.spacing / 2 - PinSection.padding
  let bot := toff - PinSection.spacing / 2 + (s.rows : ℚ) * PinSection.spacing
    + PinSection.padding
  ⟨x, y + top, x + width, y + bot⟩

def Symbol.line_weight : ℚ := 3

/-- `Symbol` of symbolator.py: an ordered list of sections and an
outline color (`line_weight` is always 3). -/
structure Symbol where
  sections : List PinSection
  line_color : Color
deriving DecidableEq, Repr

/-- The section boxes collected by the drawing loop of `Symbol.draw`
(lines 262-268): each section is drawn at the accumulated `yoff`, its
returned box is collected, and `yoff` advances by the height
`bbox[3] - bbox[1]` of the drawn group as reported by the backend. -/
def Symbol.sectionBoxesAux (c : Canvas) (x w : ℚ) :
    ℚ → List PinSection → List Box
  | _, [] => []
  | yoff, s :: ss =>
    let gb := c.sectGroupBounds s w
    s.drawBox x yoff w c :: Symbol.sectionBoxesAux c x w (yoff + (gb.2 - gb.1)) ss

/-- The union-then-inset box of two boxes (componentwise min/max). -/
def Box.union (a b : Box) : Box :=
  ⟨min a.x0 b.x0, min a.y0 b.y0, max a.x1 b.x1, max a.y1 b.y1⟩

/-- Inset a box by `hw` on each of the four sides. -/
def Box.shrink (a : Box) (hw : ℚ) : Box :=
  ⟨a.x0 + hw, a.y0 + hw, a.x1 - hw, a.y1 - hw⟩

/-- The width used by `Symbol.draw` (lines 256-259): the explicit
`sym_width` argument when given, otherwise the maximum `min_width`
over the sections (`none` models the `ValueError` of `max()` on a
symbol with no sections). -/
def Symbol.usedWidth (sym : Symbol) (c : Canvas) (sym_width : Option ℚ) : Option ℚ :=
  match sym_width with
  | some w => some w
  | none => pyMaxOpt (sym.sections.map (·.min_width c c.defFont))

/-- `Symbol.draw` (lines 256-283): draw the sections top to bottom,
then return the outline box: componentwise min/max over the collected
section boxes, pulled in by `hw = line_weight/2.0 - 0.5` on every side
(the outline rectangle emitted with that box is not part of the return
value).  `none` models the `ValueError`/`IndexError` raised when the
symbol has no sections. -/
def Symbol.draw (sym : Symbol) (x y : ℚ) (c : Canvas) (sym_width : Option ℚ) :
    Option Box :=
  (sym.usedWidth c sym_width).bind fun w =>
    match Symbol.sectionBoxesAux c x w y sym.sections with
    | [] => none
    | b :: bs =>
      let hw := Symbol.line_weight / 2 - 1 / 2
      some ⟨(bs.map (·.x0)).foldl min b.x0 + hw,
            (bs.map (·.y0)).foldl min b.y0 + hw,
            (bs.map (·.x1)).foldl max b.x1 - hw,
            (bs.map (·.y1)).foldl max b.y1 - hw⟩

/-- `HdlSymbol` of symbolator.py (defaults: `symbol_spacing = 10`,
`width_steps = 20`; `component` is the optional title string passed as
first constructor argument). -/
structure HdlSymbol where
  component : Option String
  symbols : List Symbol
  symbol_spacing : ℚ := 10
  width_steps : ℚ := 20
deriving DecidableEq, Repr

/-- The shared width computed by `HdlSymbol.draw` (lines 300-302): the
maximum `min_width` over every section of every contained symbol
(`none` models the `ValueError` of `max()` when there is none), floor
divided by `width_steps`, plus one step, times `width_steps`. -/
def HdlSymbol.sharedWidth (hs : HdlSymbol) (c : Canvas) : Option ℚ :=
  (pyMaxOpt ((hs.symbols.map
      (fun sym => sym.sections.map (·.min_width c c.defFont))).flatten)).map
    (fun w => ((⌊w / hs.width_steps⌋ : ℚ) + 1) * hs.width_steps)

/-- The symbol loop of `HdlSymbol.draw` (lines 304-313): each symbol is
drawn at `y + yoff` with the shared width, and `yoff` advances by the
drawn height plus `symbol_spacing`. -/
def HdlSymbol.drawAux (c : Canvas) (w spacing x y : ℚ) :
    ℚ → List Symbol → Option (List Box)
  | _, [] => some []
  | yoff, s :: ss =>
    (s.draw x (y + yoff) c (some w)).bind fun bb =>
      (HdlSymbol.drawAux c w spacing x y (yoff + (bb.y1 - bb.y0) + spacing) ss).map
        (bb :: ·)

/-- `HdlSymbol.draw` (lines 298-313), returning the boxes of the drawn
symbols (the title text emitted for the first symbol produces no return
value).  Note `yoff` is initialized to `y` (line 304), so the first
symbol is drawn at vertical position `y + y`. -/
def HdlSymbol.draw (hs : HdlSymbol) (x y : ℚ) (c : Canvas) : Option (List Box) :=
  (hs.sharedWidth c).bind fun w =>
    HdlSymbol.drawAux c w hs.symbol_spacing x y y hs.symbols

/-! ## `make_symbol` (lines 364-398) -/

/-- The generics block of `make_symbol` (lines 370-374): one section
over all generics, fill `(200,200,200)`, line color `(100,100,100)`,
wrapped in a Symbol with line color `(100,100,100)`. -/
def genericsBlock (pal : Palette) (generics : List Parameter) (no_type : Bool) :
    Option Symbol :=
  (make_section pal none generics (some (200, 200, 200)) no_type).map fun s =>
    { sections := [{ s with line_color := (100, 100, 100) }],
      line_color := (100, 100, 100) }

/-- The ports sections of `make_symbol` (lines 392-394): one
`make_section` per partition piece, the `k`-th piece taking the `k`-th
color of the sinebow sequence. -/
def mkPortSections (pal : Palette) (no_type : Bool) :
    ℕ → List (Option String × List Parameter) → Option (List PinSection)
  | _, [] => some []
  | k, (sn, ps) :: rest =>
    (make_section pal sn ps (some (pal.seq k)) no_type).bind fun s =>
      (mkPortSections pal no_type (k + 1) rest).map (s :: ·)

/-- `make_symbol` (lines 364-398): an `HdlSymbol` (titled with the
component name iff `title`), containing the generics Symbol when there
are generics, followed by the ports Symbol when there are ports. -/
def make_symbol (pal : Palette) (comp : Component) (title no_type : Bool) :
    Option HdlSymbol :=
  let gens : Option (List Symbol) :=
    if comp.generics.isEmpty then some []
    else (genericsBlock pal comp.generics no_type).map ([·])
  let psyms : Option (List Symbol) :=
    if comp.ports.isEmpty then some []
    else (mkPortSections pal no_type 0 (make_sections comp.sections comp.ports)).map
      (fun sects => [{ sections := sects, line_color := (0, 0, 0) }])
  gens.bind fun gs => psyms.map fun ps =>
    { component := if title then some comp.name else none,
      symbols := gs ++ ps, symbol_spacing := 10, width_steps := 20 }

/-! ## Proof helpers and concrete instances

`gLoop` and `splitRun` are accumulator-free reformulations of the
partition loop used only in proofs; the concrete `Palette`, `Canvas`,
parameters and components below instantiate the theorems. -/

/-- `msLoop` without the `sections` accumulator. -/
def gLoop (m : ℕ → Option String) :
    ℕ → Option String → List Parameter → List Parameter →
    List (Option String × List Parameter)
  | _, sname, cur, [] => if cur.isEmpty then [] else [(sname, cur)]
  | i, sname, cur, p :: ps =>
    if (m i).isSome ∧ cur ≠ [] then
      (sname, cur) :: gLoop m (i + 1) (m i) [p] ps
    else
      gLoop m (i + 1) sname (cur ++ [p]) ps

/-- Declarative splitter: starting at index `i`, `splitRun m i ps`
returns the run of parameters up to (excluding) the first marked index,
and then one labeled piece per marked index. -/
def splitRun (m : ℕ → Option String) :
    ℕ → List Parameter → List Parameter × List (Option String × List Parameter)
  | _, [] => ([], [])
  | i, p :: ps =>
    let pr := splitRun m (i + 1) ps
    match m i with
    | some lbl => ([], (some lbl, p :: pr.1) :: pr.2)
    | none => (p :: pr.1, pr.2)

/-- Cumulative start index of the `k`-th piece of a partition. -/
def pieceStart (S : List (Option String × List Parameter)) (k : ℕ) : ℕ :=
  ((S.take k).map (fun pc => pc.2.length)).sum

/-- A trivial palette (external sinebow colors are irrelevant to every
claim). -/
def pal0 : Palette := ⟨fun _ => none, fun _ => (0, 0, 0)⟩

/-- A canvas whose font-metric oracle reports empty boxes. -/
def canvas0 : Canvas := ⟨fun _ _ => (0, 0, 0, 0, 0), ⟨"Helvetica", 14, ""⟩, fun _ _ => (0, 0)⟩

def paramInW : Parameter := ⟨"a", "in", some "bit", none⟩

def paramOutW : Parameter := ⟨"b", "out", some "bit", none⟩

def paramClkW : Parameter := ⟨"clk", "in", some "bit", none⟩

def paramBusW : Parameter := ⟨"d", "inout", some "std[7:0]", none⟩

def paramNoTypeW : Parameter := ⟨"p", "in", none, none⟩

def psW1 : List Parameter := [paramInW, paramOutW]

def psW9 : List Parameter := [paramClkW, ⟨"clk_out", "out", some "bit", none⟩]

def psW10 : List Parameter := [paramBusW]

/-- The section produced by `make_section pal0 none psW1 none false`. -/
def sectW1 : PinSection :=
  ⟨none, none, none, (0, 0, 0),
    [⟨"a", 'l', false, false, false, false, some "bit"⟩,
     ⟨"b", 'r', false, false, false, false, some "bit"⟩]⟩

/-- The section produced by `make_section pal0 none psW9 none false`. -/
def sectW9 : PinSection :=
  ⟨none, none, none, (0, 0, 0),
    [⟨"clk", 'l', false, true, false, false, some "bit"⟩,
     ⟨"clk_out", 'r', false, false, false, false, some "bit"⟩]⟩

/-- The section produced by `make_section pal0 none psW10 none true`. -/
def sectW10 : PinSection :=
  ⟨none, none, none, (0, 0, 0),
    [⟨"d", 'r', false, false, true, true, none⟩]⟩

/-- A section with no pins and no name (its `drawBox` at width 5 is
`(0, -15, 5, -5)`). -/
def sectE : PinSection := ⟨none, none, none, (0, 0, 0), []⟩

def symW : Symbol := ⟨[sectE], (0, 0, 0)⟩

def hsW : HdlSymbol := ⟨none, [symW], 10, 20⟩

/-- A component with no ports and no generics. -/
def compEmpty : Component := ⟨"empty", none, [], [], fun _ => none⟩

/-- A component with no ports and one generic. -/
def compGen : Component :=
  ⟨"genonly", none, [], [⟨"G", "in", some "integer", none⟩], fun _ => none⟩

/-- A component whose only generic uses VHDL range syntax in its type. -/
def compG7 : Component :=
  ⟨"c", none, [], [⟨"G", "in", some "g(7 downto 0)", none⟩], fun _ => none⟩

/-- The generics Symbol produced by `make_symbol` for `compGen`. -/
def gsymW : Symbol :=
  ⟨[⟨none, none, some (200, 200, 200), (100, 100, 100),
      [⟨"G", 'l', false, false, false, false, some "integer"⟩]⟩],
    (100, 100, 100)⟩

def portsW8 : List Parameter :=
  [⟨"a", "in", some "bit", none⟩, ⟨"b", "in", some "bit", none⟩]

def mW8 : ℕ → Option String := fun i => if i = 1 then some "ctl|Control" else none

/-- The partition produced by `make_sections mW8 portsW8`. -/
def SW8 : List (Option String × List Parameter) :=
  [(none, [⟨"a", "in", some "bit", none⟩]),
   (some "ctl|Control", [⟨"b", "in", some "bit", none⟩])]

/-! ## Lemmas about `begins` and `occurs` -/

theorem begins_of_nil {q : List Char} (h : begins q [] = true) : q = [] := by
  cases q with
  | nil => rfl
  | cons c cs => simp [begins] at h

theorem begins_mono : ∀ (q a b : List Char), begins q a = true → begins q (a ++ b) = true
  | [], _, _, _ => rfl
  | c :: t, [], b, h => by simp [begins] at h
  | c :: t, d :: a', b, h => by
    simp only [begins, Bool.and_eq_true, beq_iff_eq] at h
    simp only [List.cons_append, begins, Bool.and_eq_true, beq_iff_eq]
    exact ⟨h.1, begins_mono t a' b h.2⟩

theorem begins_mem : ∀ (q s : List Char), begins q s = true → ∀ c ∈ q, c ∈ s
  | [], _, _, c, hc => absurd hc (List.not_mem_nil c)
  | c :: t, [], h, _, _ => by simp [begins] at h
  | c :: t, d :: s', h, x, hx => by
    simp only [begins, Bool.and_eq_true, beq_iff_eq] at h
    rcases List.mem_cons.mp hx with rfl | hx'
    · rw [h.1]; exact List.mem_cons_self _ _
    · exact List.mem_cons_of_mem _ (begins_mem t s' h.2 x hx')

theorem occurs_nil_pat : ∀ s : List Char, occurs [] s = true
  | [] => rfl
  | c :: cs => by simp [occurs, begins]

theorem occurs_pat_nil {p : List Char} (hp : p ≠ []) : occurs p [] = false := by
  cases p with
  | nil => exact absurd rfl hp
  | cons c cs => rfl

theorem occurs_of_begins {q s : List Char} (h : begins q s = true) : occurs q s = true := by
  cases s with
  | nil => rw [begins_of_nil h]; rfl
  | cons c cs => simp [occurs, h]

theorem occurs_mem : ∀ (q s : List Char), occurs q s = true → ∀ c ∈ q, c ∈ s
  | q, [], h, c, hc => by
    cases q with
    | nil => exact absurd hc (List.not_mem_nil c)
    | cons d t => simp [occurs] at h
  | q, d :: s', h, c, hc => by
    simp only [occurs, Bool.or_eq_true] at h
    rcases h with h | h
    · exact begins_mem q (d :: s') h c hc
    · exact List.mem_cons_of_mem _ (occurs_mem q s' h c hc)

theorem occurs_append_right : ∀ (q a b : List Char), occurs q a = true → occurs q (a ++ b) = true
  | q, [], b, h => by
    cases q with
    | nil => exact occurs_nil_pat b
    | cons d t => simp [occurs] at h
  | q, d :: a', b, h => by
    simp only [occurs, Bool.or_eq_true] at h
    simp only [List.cons_append, occurs, Bool.or_eq_true]
    rcases h with h | h
    · exact Or.inl (begins_mono _ _ _ h)
    · exact Or.inr (occurs_append_right q a' b h)

theorem occurs_append_left : ∀ (q a b : List Char), occurs q b = true → occurs q (a ++ b) = true
  | _, [], _, h => h
  | q, d :: a', b, h => by
    simp only [List.cons_append, occurs, Bool.or_eq_true]
    exact Or.inr (occurs_append_left q a' b h)

theorem occurs_drop_le {pat l : List Char} {n : ℕ} (h : occurs pat (l.drop n) = true) :
    occurs pat l = true := by
  have h2 := occurs_append_left pat (l.take n) _ h
  rwa [List.take_append_drop] at h2

theorem begins_span : ∀ (a : List Char) (x : Char) (b q : List Char),
    begins q (a ++ x :: b) = true → begins q a = true ∨ x ∈ q
  | [], x, b, q, h => by
    cases q with
    | nil => exact Or.inl rfl
    | cons c t =>
      simp only [List.nil_append, begins, Bool.and_eq_true, beq_iff_eq] at h
      rw [← h.1]; exact Or.inr (List.mem_cons_self _ _)
  | y :: a', x, b, q, h => by
    cases q with
    | nil => exact Or.inl rfl
    | cons c t =>
      simp only [List.cons_append, begins, Bool.and_eq_true, beq_iff_eq] at h
      obtain ⟨rfl, h2⟩ := h
      rcases begins_span a' x b t h2 with h3 | h3
      · exact Or.inl (by simp [begins, h3])
      · exact Or.inr (List.mem_cons_of_mem _ h3)

theorem occurs_span : ∀ (a : List Char) (x : Char) (b q : List Char),
    occurs q (a ++ x :: b) = true → occurs q a = true ∨ occurs q b = true ∨ x ∈ q
  | [], x, b, q, h => by
    simp only [List.nil_append, occurs, Bool.or_eq_true] at h
    rcases h with h | h
    · cases q with
      | nil => exact Or.inl rfl
      | cons c t =>
        simp only [begins, Bool.and_eq_true, beq_iff_eq] at h
        rw [← h.1]; exact Or.inr (Or.inr (List.mem_cons_self _ _))
    · exact Or.inr (Or.inl h)
  | y :: a', x, b, q, h => by
    simp only [List.cons_append, occurs, Bool.or_eq_true] at h
    rcases h with h | h
    · rcases begins_span (y :: a') x b q h with h2 | h2
      · exact Or.inl (occurs_of_begins h2)
      · exact Or.inr (Or.inr h2)
    · rcases occurs_span a' x b q h with h2 | h2 | h2
      · exact Or.inl (by simp [occurs, h2])
      · exact Or.inr (Or.inl h2)
      · exact Or.inr (Or.inr h2)

theorem occurs_append_cases : ∀ (a b q : List Char),
    occurs q (a ++ b) = true → occurs q b = true ∨ ∃ c, c ∈ a ∧ c ∈ q
  | [], _, _, h => Or.inl h
  | y :: a', b, q, h => by
    simp only [List.cons_append, occurs, Bool.or_eq_true] at h
    rcases h with h | h
    · cases q with
      | nil => exact Or.inl (occurs_nil_pat b)
      | cons c t =>
        simp only [begins, Bool.and_eq_true, beq_iff_eq] at h
        refine Or.inr ⟨y, List.mem_cons_self _ _, ?_⟩
        rw [← h.1]; exact List.mem_cons_self _ _
    · rcases occurs_append_cases a' b q h with h2 | ⟨c, hc1, hc2⟩
      · exact Or.inl h2
      · exact Or.inr ⟨c, List.mem_cons_of_mem _ hc1, hc2⟩

/-! ## Lemmas about `replaceListF` / `replaceList` -/

theorem replaceListF_nil (p r : List Char) (fuel : ℕ) : replaceListF p r fuel [] = [] := by
  cases fuel <;> rfl

theorem replaceListF_zero (p r t : List Char) : replaceListF p r 0 t = t := by
  cases t <;> rfl

theorem replaceListF_cons (p r : List Char) (n : ℕ) (c : Char) (cs : List Char) :
    replaceListF p r (n + 1) (c :: cs) =
      if p ≠ [] ∧ begins p (c :: cs) = true then
        r ++ replaceListF p r n ((c :: cs).drop p.length)
      else c :: replaceListF p r n cs := rfl

theorem replaceListF_begins_cases {p r : List Char} (hr : r ≠ []) :
    ∀ (fuel : ℕ) (t q : List Char), begins q (replaceListF p r fuel t) = true →
      q = [] ∨ (∃ c, c ∈ q ∧ c ∈ r) ∨ begins q t = true := by
  intro fuel
  induction fuel with
  | zero => intro t q h; rw [replaceListF_zero] at h; exact Or.inr (Or.inr h)
  | succ n ih =>
    intro t q h
    cases t with
    | nil =>
      rw [replaceListF_nil] at h
      exact Or.inl (begins_of_nil h)
    | cons c cs =>
      rw [replaceListF_cons] at h
      by_cases hg : p ≠ [] ∧ begins p (c :: cs) = true
      · rw [if_pos hg] at h
        cases q with
        | nil => exact Or.inl rfl
        | cons d t' =>
          cases r with
          | nil => exact absurd rfl hr
          | cons rh rt =>
            simp only [List.cons_append, begins, Bool.and_eq_true, beq_iff_eq] at h
            refine Or.inr (Or.inl ⟨d, List.mem_cons_self _ _, ?_⟩)
            rw [h.1]; exact List.mem_cons_self _ _
      · rw [if_neg hg] at h
        cases q with
        | nil => exact Or.inl rfl
        | cons d t' =>
          simp only [begins, Bool.and_eq_true, beq_iff_eq] at h
          obtain ⟨rfl, h2⟩ := h
          rcases ih cs t' h2 with h3 | h3 | h3
          · subst h3
            exact Or.inr (Or.inr (by simp [begins]))
          · obtain ⟨ch, hc1, hc2⟩ := h3
            exact Or.inr (Or.inl ⟨ch, List.mem_cons_of_mem _ hc1, hc2⟩)
          · exact Or.inr (Or.inr (by simp [begins, h3]))

theorem replaceListF_no_occurs {p r : List Char} (hp : p ≠ []) (hr : r ≠ [])
    (hd : ∀ c ∈ r, c ∉ p) :
    ∀ (fuel : ℕ) (t : List Char), t.length ≤ fuel →
      occurs p (replaceListF p r fuel t) = false := by
  intro fuel
  induction fuel with
  | zero =>
    intro t ht
    have ht0 : t = [] := List.length_eq_zero.mp (Nat.le_antisymm ht (Nat.zero_le _))
    subst ht0
    rw [replaceListF_nil]
    exact occurs_pat_nil hp
  | succ n ih =>
    intro t ht
    cases t with
    | nil => rw [replaceListF_nil]; exact occurs_pat_nil hp
    | cons c cs =>
      rw [replaceListF_cons]
      by_cases hg : p ≠ [] ∧ begins p (c :: cs) = true
      · rw [if_pos hg]
        rw [Bool.eq_false_iff]
        intro hocc
        rcases occurs_append_cases r _ p hocc with h2 | ⟨ch, hcr, hcp⟩
        · have hlen : ((c :: cs).drop p.length).length ≤ n := by
            have hp1 : 1 ≤ p.length := by
              cases p with
              | nil => exact absurd rfl hp
              | cons a as => simp
            simp only [List.length_drop, List.length_cons]
            simp only [List.length_cons] at ht
            omega
          rw [ih _ hlen] at h2
          exact Bool.false_ne_true h2
        · exact hd ch hcr hcp
      · rw [if_neg hg]
        have hcs : cs.length ≤ n := by
          simp only [List.length_cons] at ht; omega
        simp only [occurs, Bool.or_eq_false_iff]
        constructor
        · rw [Bool.eq_false_iff]
          intro hb
          cases p with
          | nil => exact absurd rfl hp
          | cons d p' =>
            simp only [begins, Bool.and_eq_true, beq_iff_eq] at hb
            obtain ⟨rfl, hb2⟩ := hb
            rcases replaceListF_begins_cases hr n cs p' hb2 with h3 | h3 | h3
            · subst h3
              exact hg ⟨hp, by simp [begins]⟩
            · obtain ⟨ch, hc1, hc2⟩ := h3
              exact hd ch hc2 (List.mem_cons_of_mem _ hc1)
            · exact hg ⟨hp, by simp [begins, h3]⟩
        · exact ih cs hcs

theorem replaceListF_no_new {q r pat : List Char} (hpat : pat ≠ []) (hr : r ≠ [])
    (hd : ∀ c ∈ r, c ∉ pat) :
    ∀ (fuel : ℕ) (t : List Char), t.length ≤ fuel → occurs pat t = false →
      occurs pat (replaceListF q r fuel t) = false := by
  intro fuel
  induction fuel with
  | zero => intro t _ h0; rw [replaceListF_zero]; exact h0
  | succ n ih =>
    intro t ht h0
    cases t with
    | nil => rw [replaceListF_nil]; exact occurs_pat_nil hpat
    | cons c cs =>
      have h0' : begins pat (c :: cs) = false ∧ occurs pat cs = false := by
        simpa only [occurs, Bool.or_eq_false_iff] using h0
      rw [replaceListF_cons]
      by_cases hg : q ≠ [] ∧ begins q (c :: cs) = true
      · rw [if_pos hg]
        rw [Bool.eq_false_iff]
        intro hocc
        rcases occurs_append_cases r _ pat hocc with h2 | ⟨ch, hcr, hcp⟩
        · have hlen : ((c :: cs).drop q.length).length ≤ n := by
            have hq1 : 1 ≤ q.length := by
              cases q with
              | nil => exact absurd rfl hg.1
              | cons a as => simp
            simp only [List.length_drop, List.length_cons]
            simp only [List.length_cons] at ht
            omega
          have hdropped : occurs pat ((c :: cs).drop q.length) = false := by
            rw [Bool.eq_false_iff]
            intro hdr
            rw [occurs_drop_le hdr] at h0
            exact Bool.false_ne_true h0.symm
          rw [ih _ hlen hdropped] at h2
          exact Bool.false_ne_true h2
        · exact hd ch hcr hcp
      · rw [if_neg hg]
        have hcs : cs.length ≤ n := by
          simp only [List.length_cons] at ht; omega
        simp only [occurs, Bool.or_eq_false_iff]
        constructor
        · rw [Bool.eq_false_iff]
          intro hb
          cases pat with
          | nil => exact absurd rfl hpat
          | cons d p' =>
            simp only [begins, Bool.and_eq_true, beq_iff_eq] at hb
            obtain ⟨rfl, hb2⟩ := hb
            rcases replaceListF_begins_cases hr n cs p' hb2 with h3 | h3 | h3
            · subst h3
              rw [show begins [d] (d :: cs) = true from by simp [begins]] at h0'
              exact Bool.false_ne_true h0'.1.symm
            · obtain ⟨ch, hc1, hc2⟩ := h3
              exact hd ch hc2 (List.mem_cons_of_mem _ hc1)
            · rw [show begins (d :: p') (d :: cs) = true from by simp [begins, h3]] at h0'
              exact Bool.false_ne_true h0'.1.symm
        · exact ih cs hcs h0'.2

theorem replaceListF_id {q r : List Char} :
    ∀ (fuel : ℕ) (t : List Char), occurs q t = false → replaceListF q r fuel t = t := by
  intro fuel
  induction fuel with
  | zero => intro t _; exact replaceListF_zero q r t
  | succ n ih =>
    intro t h0
    cases t with
    | nil => exact replaceListF_nil q r _
    | cons c cs =>
      have h0' : begins q (c :: cs) = false ∧ occurs q cs = false := by
        simpa only [occurs, Bool.or_eq_false_iff] using h0
      rw [replaceListF_cons, if_neg, ih cs h0'.2]
      intro hg
      rw [hg.2] at h0'
      exact Bool.false_ne_true h0'.1.symm

theorem replaceListF_mem_subset {p r : List Char} {ch : Char} (hchr : ch ∉ r) :
    ∀ (fuel : ℕ) (t : List Char), ch ∉ t → ch ∉ replaceListF p r fuel t := by
  intro fuel
  induction fuel with
  | zero => intro t h0; rw [replaceListF_zero]; exact h0
  | succ n ih =>
    intro t h0
    cases t with
    | nil => rw [replaceListF_nil]; exact List.not_mem_nil ch
    | cons c cs =>
      rw [replaceListF_cons]
      by_cases hg : p ≠ [] ∧ begins p (c :: cs) = true
      · rw [if_pos hg]
        rw [List.mem_append]
        rintro (h | h)
        · exact hchr h
        · refine ih _ ?_ h
          intro hmem
          have : ch ∈ (c :: cs).take p.length ++ (c :: cs).drop p.length :=
            List.mem_append.mpr (Or.inr hmem)
          rw [List.take_append_drop] at this
          exact h0 this
      · rw [if_neg hg]
        rw [List.mem_cons]
        rintro (rfl | h)
        · exact h0 (List.mem_cons_self _ _)
        · exact ih cs (fun hmem => h0 (List.mem_cons_of_mem _ hmem)) h

theorem replaceList_no_occurs {p r : List Char} (hp : p ≠ []) (hr : r ≠ [])
    (hd : ∀ c ∈ r, c ∉ p) (s : List Char) : occurs p (replaceList p r s) = false :=
  replaceListF_no_occurs hp hr hd s.length s le_rfl

theorem replaceList_no_new {q r pat : List Char} (hpat : pat ≠ []) (hr : r ≠ [])
    (hd : ∀ c ∈ r, c ∉ pat) (s : List Char) (h0 : occurs pat s = false) :
    occurs pat (replaceList q r s) = false :=
  replaceListF_no_new hpat hr hd s.length s le_rfl h0

theorem replaceList_id {q r : List Char} (s : List Char) (h0 : occurs q s = false) :
    replaceList q r s = s :=
  replaceListF_id s.length s h0

theorem replaceList_mem_subset {p r : List Char} {ch : Char} (hchr : ch ∉ r)
    (s : List Char) (h0 : ch ∉ s) : ch ∉ replaceList p r s :=
  replaceListF_mem_subset hchr s.length s h0

/-! ## Lemmas about `takeWhile`/`dropWhile` and the rewrite stages -/

theorem takeWhile_all {pch : Char → Bool} :
    ∀ l : List Char, (∀ c ∈ l, pch c = true) → l.takeWhile pch = l
  | [], _ => rfl
  | c :: cs, h => by
    rw [List.takeWhile_cons_of_pos (h c (List.mem_cons_self _ _))]
    rw [takeWhile_all cs (fun x hx => h x (List.mem_cons_of_mem _ hx))]

theorem takeWhile_middle {pch : Char → Bool} :
    ∀ (l : List Char) (x : Char) (b : List Char), (∀ c ∈ l, pch c = true) →
      pch x = false → (l ++ x :: b).takeWhile pch = l
  | [], x, b, _, hx => by
    simp only [List.nil_append]
    exact List.takeWhile_cons_of_neg (by simp [hx])
  | c :: cs, x, b, h, hx => by
    simp only [List.cons_append]
    rw [List.takeWhile_cons_of_pos (h c (List.mem_cons_self _ _))]
    rw [takeWhile_middle cs x b (fun y hy => h y (List.mem_cons_of_mem _ hy)) hx]

theorem dropWhile_middle {pch : Char → Bool} :
    ∀ (l : List Char) (x : Char) (b : List Char), (∀ c ∈ l, pch c = true) →
      pch x = false → (l ++ x :: b).dropWhile pch = x :: b
  | [], x, b, _, hx => by
    simp only [List.nil_append]
    exact List.dropWhile_cons_of_neg (by simp [hx])
  | c :: cs, x, b, h, hx => by
    simp only [List.cons_append]
    rw [List.dropWhile_cons_of_pos (h c (List.mem_cons_self _ _))]
    rw [dropWhile_middle cs x b (fun y hy => h y (List.mem_cons_of_mem _ hy)) hx]

theorem regexSubList_eq_nomatch (s : List Char)
    (h : (s.dropWhile (· == '(')).dropWhile (· != '(') = []) : regexSubList s = s := by
  unfold regexSubList
  rw [h]

theorem regexSubList_eq_match (s : List Char) (c : Char) (rest3 : List Char)
    (h : (s.dropWhile (· == '(')).dropWhile (· != '(') = c :: rest3)
    (hlast : s.getLast? = some ')') :
    regexSubList s = s.takeWhile (· == '(') ++ (s.dropWhile (· == '(')).takeWhile (· != '(')
      ++ '[' :: (rest3.dropLast ++ [']']) := by
  unfold regexSubList
  rw [h]
  simp only [if_pos hlast]

theorem regexSubList_eq_nolast (s : List Char) (c : Char) (rest3 : List Char)
    (h : (s.dropWhile (· == '(')).dropWhile (· != '(') = c :: rest3)
    (hlast : ¬ s.getLast? = some ')') : regexSubList s = s := by
  unfold regexSubList
  rw [h]
  simp only [if_neg hlast]

theorem splitStage_id (s : List Char) (h : '[' ∉ s) : splitStageList s = s := by
  unfold splitStageList
  rw [if_neg h]

theorem splitStage_shape (A X : List Char) (hA : '[' ∉ A) (hX : '[' ∉ X) :
    splitStageList (A ++ '[' :: X) = A ++ '[' :: X.filter (· != ' ') := by
  have hAch : ∀ c ∈ A, (c != '[') = true := by
    intro c hc
    simp only [bne_iff_ne, ne_eq]
    intro hcc
    exact hA (hcc ▸ hc)
  have hXch : ∀ c ∈ X, (c != '[') = true := by
    intro c hc
    simp only [bne_iff_ne, ne_eq]
    intro hcc
    exact hX (hcc ▸ hc)
  unfold splitStageList
  rw [if_pos (List.mem_append.mpr (Or.inr (List.mem_cons_self _ _)))]
  rw [takeWhile_middle A '[' X hAch (by simp)]
  rw [dropWhile_middle A '[' X hAch (by simp)]
  simp only [List.tail_cons]
  rw [takeWhile_all X hXch]

theorem regexSub_last_bracket (r : List Char) (h : r.getLast? = some ']') :
    regexSubList r = r := by
  unfold regexSubList
  split
  · rfl
  · rw [if_neg (show ¬ r.getLast? = some ')' by rw [h]; simp)]

theorem stage2_fixed (s1 : List Char) (h1 : '[' ∉ s1)
    (hDn : occurs " downto ".toList s1 = false)
    (hTo : occurs " to ".toList s1 = false) :
    occurs " downto ".toList (splitStageList (regexSubList s1)) = false ∧
    occurs " to ".toList (splitStageList (regexSubList s1)) = false ∧
    splitStageList (regexSubList (splitStageList (regexSubList s1))) =
      splitStageList (regexSubList s1) := by
  cases hD2 : (s1.dropWhile (· == '(')).dropWhile (· != '(') with
  | nil =>
    have hreg : regexSubList s1 = s1 := regexSubList_eq_nomatch s1 hD2
    have hsp : splitStageList s1 = s1 := splitStage_id s1 h1
    rw [hreg, hsp, hreg, hsp]
    exact ⟨hDn, hTo, rfl⟩
  | cons c rest3 =>
    by_cases hlast : s1.getLast? = some ')'
    · have hsub3 : ∀ x ∈ rest3, x ∈ s1 := by
        intro x hx
        have hxD2 : x ∈ (s1.dropWhile (· == '(')).dropWhile (· != '(') := by
          rw [hD2]; exact List.mem_cons_of_mem _ hx
        exact (List.dropWhile_sublist _).subset ((List.dropWhile_sublist _).subset hxD2)
      set A := s1.takeWhile (· == '(') ++ (s1.dropWhile (· == '(')).takeWhile (· != '(')
        with hAdef
      set B := rest3.dropLast with hBdef
      have hsubA : ∀ x ∈ A, x ∈ s1 := by
        intro x hx
        rw [hAdef] at hx
        rcases List.mem_append.mp hx with hx | hx
        · exact (List.takeWhile_sublist _).subset hx
        · exact (List.dropWhile_sublist _).subset ((List.takeWhile_sublist _).subset hx)
      have hsubB : ∀ x ∈ B, x ∈ s1 := by
        intro x hx
        rw [hBdef] at hx
        exact hsub3 x ((List.dropLast_sublist _).subset hx)
      have hA : '[' ∉ A := fun hx => h1 (hsubA _ hx)
      have hBX : '[' ∉ B ++ [']'] := by
        intro hx
        rcases List.mem_append.mp hx with hx | hx
        · exact h1 (hsubB _ hx)
        · simp at hx
      have hAD2 : A ++ (s1.dropWhile (· == '(')).dropWhile (· != '(') = s1 := by
        rw [hAdef, List.append_assoc, List.takeWhile_append_dropWhile,
          List.takeWhile_append_dropWhile]
      have hreg : regexSubList s1 = A ++ '[' :: (B ++ [']']) := by
        rw [regexSubList_eq_match s1 c rest3 hD2 hlast, hAdef, hBdef, List.append_assoc]
      have hspt : splitStageList (A ++ '[' :: (B ++ [']'])) =
          A ++ '[' :: ((B ++ [']']).filter (· != ' ')) := splitStage_shape A _ hA hBX
      have hfX : (B ++ [']']).filter (· != ' ') = B.filter (· != ' ') ++ [']'] := by
        rw [List.filter_append]
        congr 1
      set B2 := B.filter (· != ' ') with hB2def
      have hsubB2 : ∀ x ∈ B2, x ∈ s1 := by
        intro x hx
        rw [hB2def] at hx
        exact hsubB x ((List.filter_sublist _).subset hx)
      have hnosp : ∀ x ∈ B2, (x != ' ') = true := by
        intro x hx
        rw [hB2def] at hx
        exact (List.mem_filter.mp hx).2
      have hr : splitStageList (regexSubList s1) = A ++ '[' :: (B2 ++ [']']) := by
        rw [hreg, hspt, hfX]
      have hno : ∀ pat : List Char, pat ≠ [] → '[' ∉ pat → ']' ∉ pat → ' ' ∈ pat →
          occurs pat s1 = false → occurs pat (A ++ '[' :: (B2 ++ [']'])) = false := by
        intro pat hne h1p h2p hsp hps1
        rw [Bool.eq_false_iff]
        intro hocc
        rcases occurs_span A '[' (B2 ++ [']']) pat hocc with h | h | h
        · have h2 := occurs_append_right pat A
            ((s1.dropWhile (· == '(')).dropWhile (· != '(')) h
          rw [hAD2, hps1] at h2
          exact Bool.false_ne_true h2
        · rcases occurs_span B2 ']' [] pat h with h | h | h
          · have hspmem := occurs_mem pat B2 h ' ' hsp
            have h3 := hnosp ' ' hspmem
            simp at h3
          · rw [occurs_pat_nil hne] at h
            exact Bool.false_ne_true h
          · exact h2p h
        · exact h1p h
      have hnoDn : occurs " downto ".toList (A ++ '[' :: (B2 ++ [']'])) = false :=
        hno _ (by decide) (by decide) (by decide) (by decide) hDn
      have hnoTo : occurs " to ".toList (A ++ '[' :: (B2 ++ [']'])) = false :=
        hno _ (by decide) (by decide) (by decide) (by decide) hTo
      have hlastr : (A ++ '[' :: (B2 ++ [']'])).getLast? = some ']' := by
        rw [show A ++ '[' :: (B2 ++ [']']) = (A ++ '[' :: B2) ++ [']'] by
          rw [← List.cons_append, ← List.append_assoc]]
        exact List.getLast?_concat _
      have h1BX : '[' ∉ B2 ++ [']'] := by
        intro hx
        rcases List.mem_append.mp hx with hx | hx
        · exact h1 (hsubB2 _ hx)
        · simp at hx
      have hsp2 : splitStageList (A ++ '[' :: (B2 ++ [']'])) =
          A ++ '[' :: ((B2 ++ [']']).filter (· != ' ')) := splitStage_shape A _ hA h1BX
      have hfX2 : (B2 ++ [']']).filter (· != ' ') = B2 ++ [']'] := by
        rw [List.filter_append]
        congr 1
        exact List.filter_eq_self.mpr hnosp
      rw [hr]
      refine ⟨hnoDn, hnoTo, ?_⟩
      rw [regexSub_last_bracket _ hlastr, hsp2, hfX2]
    · have hreg : regexSubList s1 = s1 := regexSubList_eq_nolast s1 c rest3 hD2 hlast
      have hsp : splitStageList s1 = s1 := splitStage_id s1 h1
      rw [hreg, hsp, hreg, hsp]
      exact ⟨hDn, hTo, rfl⟩

/-! ## Claim C6 -/

/-- C6 (counterexample): type canonicalization is **not** idempotent on
every string: for the data type `a[(b)[` one application gives `a[(b)`
and a second application gives `a[`, because the second pass's
end-anchored regex finds a parenthesized group that the first pass's
bracket-split re-exposed. -/
theorem c6_counterexample :
    reformatType (reformatType "a[(b)[") ≠ reformatType "a[(b)[" := by decide

/-- C6 (amended): canonicalization maps the parenthesized VHDL range
`7 downto 0` to the bracketed `[7:0]` form and `0 to 7` to the
ascending `[0➙7]` form, and it is idempotent on every data type in
which the character `[` does not occur (the counterexample forces the
restriction: inputs already containing `[` can break idempotence). -/
theorem c6_amended :
    reformatType "std_logic_vector(7 downto 0)" = "std_logic_vector[7:0]" ∧
    reformatType "foo(0 to 7)" = "foo[0➙7]" ∧
    ∀ s : String, '[' ∉ s.toList → reformatType (reformatType s) = reformatType s := by
  refine ⟨by decide, by decide, ?_⟩
  intro s hs
  have hDn1 : occurs " downto ".toList
      (replaceList " downto ".toList ":".toList s.toList) = false :=
    replaceList_no_occurs (by decide) (by decide) (by decide) _
  set s1 := replaceList " to ".toList "➙".toList
    (replaceList " downto ".toList ":".toList s.toList) with hs1def
  have hDn : occurs " downto ".toList s1 = false :=
    replaceList_no_new (by decide) (by decide) (by decide) _ hDn1
  have hTo : occurs " to ".toList s1 = false :=
    replaceList_no_occurs (by decide) (by decide) (by decide) _
  have h1 : '[' ∉ s1 :=
    replaceList_mem_subset (by decide) _ (replaceList_mem_subset (by decide) _ hs)
  obtain ⟨hrDn, hrTo, hrfix⟩ := stage2_fixed s1 h1 hDn hTo
  have hf : reformatType s = ⟨splitStageList (regexSubList s1)⟩ := by
    unfold reformatType
    rw [hs1def]
  rw [hf]
  unfold reformatType
  rw [show (⟨splitStageList (regexSubList s1)⟩ : String).toList =
    splitStageList (regexSubList s1) from rfl]
  rw [replaceList_id _ hrDn, replaceList_id _ hrTo, hrfix]

/-- C6 (witness): the amended idempotence applied to the concrete
bracket-free data type `x(3 downto 1)`. -/
theorem c6_witness :
    '[' ∉ ("x(3 downto 1)" : String).toList ∧
    reformatType (reformatType "x(3 downto 1)") = reformatType "x(3 downto 1)" :=
  ⟨by decide, c6_amended.2.2 "x(3 downto 1)" (by decide)⟩

/-! ## Claim C7 -/

/-- C7 (counterexample): type canonicalization is **not** applied to
generics.  `reformat_array_params` leaves the generic's dialect-syntax
type `g(7 downto 0)` untouched, although the canonicalizer would map
it to the bracketed form `g[7:0]` — so a generic declared with range
syntax is *not* rendered in canonical bracketed form. -/
theorem c7_counterexample :
    (reformat_array_params compG7).generics.map (fun p => p.data_type) =
      [some "g(7 downto 0)"] ∧
    reformatType "g(7 downto 0)" = "g[7:0]" ∧
    ("g(7 downto 0)" : String) ≠ "g[7:0]" :=
  ⟨rfl, by decide, by decide⟩

/-- C7 (amended): `reformat_array_params` rewrites the `data_type` of
every **port** (when present) by the canonicalizer and leaves the
generics of the component completely unchanged. -/
theorem c7_amended (vo : Component) :
    (reformat_array_params vo).generics = vo.generics ∧
    (reformat_array_params vo).ports =
      vo.ports.map (fun p => { p with data_type := p.data_type.map reformatType }) :=
  ⟨rfl, rfl⟩

/-! ## Classification lemmas (`make_section` loop) -/

theorem makePinStep_some {nt : Bool} {prev : Char} {p : Parameter} {pin : Pin} {sd : Char}
    (h : makePinStep nt prev p = some (pin, sd)) :
    ∃ dt, p.data_type = some dt ∧
      sd = sideOf (normMode p.mode) prev ∧
      pin = { text := p.name, side := sideOf (normMode p.mode) prev,
              bubble := pinPatternBubble p.name,
              clocked := (normMode p.mode == "in") && pinPatternClock p.name,
              bus := dt.toList.contains '[' || pinPatternBus p.name,
              bidir := normMode p.mode == "inout",
              data_type := if nt then none else some dt } := by
  cases hdt : p.data_type with
  | none =>
    unfold makePinStep at h
    rw [hdt] at h
    simp at h
  | some dt =>
    unfold makePinStep at h
    rw [hdt] at h
    simp only [Option.some.injEq, Prod.mk.injEq] at h
    obtain ⟨h1, h2⟩ := h
    refine ⟨dt, rfl, ?_, ?_⟩
    · rw [← h2]
    · rw [← h1]

theorem makePinStep_isSome {nt : Bool} {prev : Char} {p : Parameter} {dt : String}
    (hdt : p.data_type = some dt) : (makePinStep nt prev p).isSome = true := by
  unfold makePinStep
  rw [hdt]
  rfl

theorem processPins_spec {nt : Bool} :
    ∀ (ps : List Parameter) (prev : Char) (pins : List Pin),
      processPins nt prev ps = some pins →
      pins.length = ps.length ∧
      ∀ i (hi : i < ps.length) (hp : i < pins.length),
        ∃ sd, makePinStep nt sd (ps.get ⟨i, hi⟩) =
          some (pins.get ⟨i, hp⟩, (pins.get ⟨i, hp⟩).side) := by
  intro ps
  induction ps with
  | nil =>
    intro prev pins h
    simp only [processPins, Option.some.injEq] at h
    subst h
    exact ⟨rfl, fun i hi _ => absurd hi (Nat.not_lt_zero i)⟩
  | cons p ps ih =>
    intro prev pins h
    unfold processPins at h
    cases hstep : makePinStep nt prev p with
    | none => rw [hstep] at h; simp at h
    | some pr =>
      obtain ⟨pin, sd⟩ := pr
      rw [hstep] at h
      obtain ⟨pins', h1, h2⟩ := Option.map_eq_some'.mp h
      subst h2
      obtain ⟨hlen, hspec⟩ := ih sd pins' h1
      refine ⟨by simp [hlen], ?_⟩
      intro i hi hp
      cases i with
      | zero =>
        refine ⟨prev, ?_⟩
        have hside : pin.side = sd := by
          obtain ⟨dt, _, hsd, hpin⟩ := makePinStep_some hstep
          rw [hpin, hsd]
        show makePinStep nt prev p = some (pin, pin.side)
        rw [hside]
        exact hstep
      | succ i =>
        have hi' : i < ps.length := by simpa using hi
        have hp' : i < pins'.length := by simpa using hp
        obtain ⟨sd2, hsd2⟩ := hspec i hi' hp'
        exact ⟨sd2, by simpa using hsd2⟩

theorem processPins_isSome {nt : Bool} :
    ∀ (ps : List Parameter) (prev : Char),
      (∀ p ∈ ps, p.data_type.isSome = true) → (processPins nt prev ps).isSome = true := by
  intro ps
  induction ps with
  | nil => intro prev _; rfl
  | cons p ps ih =>
    intro prev hdt
    have hp : p.data_type.isSome = true := hdt p (List.mem_cons_self _ _)
    cases hdtv : p.data_type with
    | none => rw [hdtv] at hp; simp at hp
    | some dt =>
      unfold processPins
      cases hstep : makePinStep nt prev p with
      | none =>
        have h2 := @makePinStep_isSome nt prev p dt hdtv
        rw [hstep] at h2
        simp at h2
      | some pr =>
        obtain ⟨pin, sd⟩ := pr
        simp only [Option.isSome_map']
        exact ih sd (fun q hq => hdt q (List.mem_cons_of_mem _ hq))

theorem make_section_pins {pal : Palette} {sname : Option String} {ps : List Parameter}
    {fill : Option Color} {nt : Bool} {sect : PinSection}
    (h : make_section pal sname ps fill nt = some sect) :
    ∃ pins, processPins nt 'l' ps = some pins ∧ sect.pins = pins := by
  unfold make_section at h
  obtain ⟨pins, h1, h2⟩ := Option.map_eq_some'.mp h
  exact ⟨pins, h1, by rw [← h2]⟩

/-! ## Claim C1 -/

/-- C1: every parameter processed by `make_section` whose normalized
mode is `in` (this covers the raw modes `in`/`input` in any letter
case) yields a pin on the left side, and normalized mode `out`/`inout`
(raw `out`/`output`/`inout`) yields a pin on the right side; the `sd`
carry value quantified inside the proof never matters for these modes,
so the side is a function of the parameter's own mode alone and does
not depend on the modes of preceding pins. -/
theorem c1_side_from_mode (pal : Palette) (sname : Option String) (ps : List Parameter)
    (fill : Option Color) (nt : Bool) (sect : PinSection)
    (h : make_section pal sname ps fill nt = some sect) :
    sect.pins.length = ps.length ∧
    ∀ i (hi : i < ps.length) (hp : i < sect.pins.length),
      (normMode (ps.get ⟨i, hi⟩).mode = "in" → (sect.pins.get ⟨i, hp⟩).side = 'l') ∧
      (normMode (ps.get ⟨i, hi⟩).mode = "out" ∨ normMode (ps.get ⟨i, hi⟩).mode = "inout" →
        (sect.pins.get ⟨i, hp⟩).side = 'r') := by
  obtain ⟨pins, hpp, hsp⟩ := make_section_pins h
  obtain ⟨hlen, hspec⟩ := processPins_spec ps 'l' pins hpp
  rw [hsp]
  refine ⟨hlen, ?_⟩
  intro i hi hp
  obtain ⟨sd, hstep⟩ := hspec i hi hp
  obtain ⟨dt, hdt, hsd, hpin⟩ := makePinStep_some hstep
  constructor
  · intro hin
    rw [hpin]
    show sideOf (normMode (ps.get ⟨i, hi⟩).mode) sd = 'l'
    rw [hin]
    unfold sideOf
    rw [if_pos (by decide)]
  · intro hout
    rw [hpin]
    show sideOf (normMode (ps.get ⟨i, hi⟩).mode) sd = 'r'
    rcases hout with hout | hout <;> rw [hout] <;> unfold sideOf
    · rw [if_neg (by decide), if_pos (by decide)]
    · rw [if_neg (by decide), if_pos (by decide)]

/-- C1 (witness): concrete section with an `in` parameter then an
`out` parameter: the first pin lands left, the second right. -/
theorem c1_witness :
    make_section pal0 none psW1 none false = some sectW1 ∧
    (sectW1.pins.get ⟨0, by decide⟩).side = 'l' ∧
    (sectW1.pins.get ⟨1, by decide⟩).side = 'r' := by
  have hEq : make_section pal0 none psW1 none false = some sectW1 := by decide
  have H := c1_side_from_mode pal0 none psW1 none false sectW1 hEq
  exact ⟨hEq, (H.2 0 (by decide) (by decide)).1 (by decide),
    (H.2 1 (by decide) (by decide)).2 (Or.inl (by decide))⟩

/-! ## Claim C9 -/

/-- C9: a pin produced by `make_section` is clocked iff its parameter's
normalized mode is `in` **and** its name matches the clock-word pattern
(case-insensitive `clk`/`clock` prefix or suffix); in particular a pin
whose mode is `out` or `inout` is never clocked, whatever its name. -/
theorem c9_clocked (pal : Palette) (sname : Option String) (ps : List Parameter)
    (fill : Option Color) (nt : Bool) (sect : PinSection)
    (h : make_section pal sname ps fill nt = some sect) :
    sect.pins.length = ps.length ∧
    ∀ i (hi : i < ps.length) (hp : i < sect.pins.length),
      ((sect.pins.get ⟨i, hp⟩).clocked = true ↔
        normMode (ps.get ⟨i, hi⟩).mode = "in" ∧
          pinPatternClock (ps.get ⟨i, hi⟩).name = true) ∧
      (normMode (ps.get ⟨i, hi⟩).mode = "out" ∨ normMode (ps.get ⟨i, hi⟩).mode = "inout" →
        (sect.pins.get ⟨i, hp⟩).clocked = false) := by
  obtain ⟨pins, hpp, hsp⟩ := make_section_pins h
  obtain ⟨hlen, hspec⟩ := processPins_spec ps 'l' pins hpp
  rw [hsp]
  refine ⟨hlen, ?_⟩
  intro i hi hp
  obtain ⟨sd, hstep⟩ := hspec i hi hp
  obtain ⟨dt, hdt, hsd, hpin⟩ := makePinStep_some hstep
  have hiff : (pins.get ⟨i, hp⟩).clocked = true ↔
      normMode (ps.get ⟨i, hi⟩).mode = "in" ∧
        pinPatternClock (ps.get ⟨i, hi⟩).name = true := by
    rw [hpin]
    simp [Bool.and_eq_true, beq_iff_eq]
  refine ⟨hiff, ?_⟩
  intro hout
  rw [Bool.eq_false_iff]
  intro hcl
  obtain ⟨hin, _⟩ := hiff.mp hcl
  rcases hout with hout | hout <;> rw [hout] at hin <;> exact absurd hin (by decide)

/-- C9 (witness): `clk` with mode `in` is clocked; `clk_out` with mode
`out` is not, despite its clock-suffix name. -/
theorem c9_witness :
    make_section pal0 none psW9 none false = some sectW9 ∧
    (sectW9.pins.get ⟨0, by decide⟩).clocked = true ∧
    (sectW9.pins.get ⟨1, by decide⟩).clocked = false := by
  have hEq : make_section pal0 none psW9 none false = some sectW9 := by decide
  have H := c9_clocked pal0 none psW9 none false sectW9 hEq
  exact ⟨hEq, (H.2 0 (by decide) (by decide)).1.mpr ⟨by decide, by decide⟩,
    (H.2 1 (by decide) (by decide)).2 (Or.inl (by decide))⟩

/-! ## Claim C10 -/

/-- C10: a pin produced by `make_section` is a bus iff its parameter's
raw `data_type` string contains a `[` (the code's bracketed-range test)
or its name matches the trailing bracket pattern; the equation holds
for every mode and for both values of `no_type` (with `no_type` the
type annotation is omitted from the pin, but the bus flag is still
computed from the raw type, line 324 before line 323's `None`). -/
theorem c10_bus (pal : Palette) (sname : Option String) (ps : List Parameter)
    (fill : Option Color) (nt : Bool) (sect : PinSection)
    (h : make_section pal sname ps fill nt = some sect) :
    sect.pins.length = ps.length ∧
    ∀ i (hi : i < ps.length) (hp : i < sect.pins.length),
      ∀ dt, (ps.get ⟨i, hi⟩).data_type = some dt →
        (sect.pins.get ⟨i, hp⟩).bus =
          (dt.toList.contains '[' || pinPatternBus (ps.get ⟨i, hi⟩).name) := by
  obtain ⟨pins, hpp, hsp⟩ := make_section_pins h
  obtain ⟨hlen, hspec⟩ := processPins_spec ps 'l' pins hpp
  rw [hsp]
  refine ⟨hlen, ?_⟩
  intro i hi hp dt hdt
  obtain ⟨sd, hstep⟩ := hspec i hi hp
  obtain ⟨dt', hdt', hsd, hpin⟩ := makePinStep_some hstep
  rw [hdt] at hdt'
  obtain rfl : dt = dt' := by injection hdt'
  rw [hpin]

/-- C10 (witness): an `inout` parameter of type `std[7:0]` drawn with
`no_type = true` still gets `bus = true`. -/
theorem c10_witness :
    make_section pal0 none psW10 none true = some sectW10 ∧
    (sectW10.pins.get ⟨0, by decide⟩).bus =
      (("std[7:0]" : String).toList.contains '[' || pinPatternBus "d") := by
  have hEq : make_section pal0 none psW10 none true = some sectW10 := by decide
  have H := c10_bus pal0 none psW10 none true sectW10 hEq
  exact ⟨hEq, H.2 0 (by decide) (by decide) "std[7:0]" (by decide)⟩

/-! ## Claim C4 -/

/-- C4 (counterexample): `make_section` is **not** total on well-formed
parameters with absent data types: a parameter whose `data_type` is
`None` makes line 324 (`bus = '[' in p.data_type`) raise `TypeError`,
modelled here by the `none` result. -/
theorem c4_counterexample : make_section pal0 none [paramNoTypeW] none false = none := by
  decide

/-- C4 (amended): `make_section` succeeds (never raises) for every list
of parameters whose `data_type` fields are all present; classification
is then a total function of name, mode and data type. -/
theorem c4_amended (pal : Palette) (sname : Option String) (ps : List Parameter)
    (fill : Option Color) (nt : Bool)
    (hdt : ∀ p ∈ ps, p.data_type.isSome = true) :
    (make_section pal sname ps fill nt).isSome = true := by
  unfold make_section
  simp only [Option.isSome_map']
  exact processPins_isSome ps 'l' hdt

/-- C4 (witness): the amended totality applied to two concrete
parameters with present data types. -/
theorem c4_witness : (make_section pal0 none psW1 none false).isSome = true :=
  c4_amended pal0 none psW1 none false (by decide)

/-! ## Geometry lemmas -/

theorem foldl_union_eq (b : Box) (bs : List Box) :
    bs.foldl Box.union b =
      ⟨(bs.map (·.x0)).foldl min b.x0, (bs.map (·.y0)).foldl min b.y0,
       (bs.map (·.x1)).foldl max b.x1, (bs.map (·.y1)).foldl max b.y1⟩ := by
  induction bs generalizing b with
  | nil => cases b; rfl
  | cons b' bs ih =>
    simp only [List.foldl_cons, List.map_cons]
    rw [ih]
    rfl

theorem le_foldl_max : ∀ (xs : List ℚ) {a b : ℚ}, b ≤ a → b ≤ xs.foldl max a
  | [], _, _, h => h
  | x :: xs, a, _, h => le_foldl_max xs (le_trans h (le_max_left a x))

theorem foldl_max_mem_le : ∀ (xs : List ℚ) (a x : ℚ), x ∈ xs → x ≤ xs.foldl max a
  | [], _, _, hx => absurd hx (List.not_mem_nil _)
  | y :: ys, a, x, hx => by
    rcases List.mem_cons.mp hx with rfl | hx'
    · exact le_foldl_max ys (le_max_right a x)
    · exact foldl_max_mem_le ys (max a y) x hx'

theorem pyMaxOpt_le {l : List ℚ} {m : ℚ} (h : pyMaxOpt l = some m) : ∀ a ∈ l, a ≤ m := by
  cases l with
  | nil => simp [pyMaxOpt] at h
  | cons x xs =>
    simp only [pyMaxOpt, Option.some.injEq] at h
    subst h
    intro a ha
    rcases List.mem_cons.mp ha with rfl | ha'
    · exact le_foldl_max xs le_rfl
    · exact foldl_max_mem_le xs x a ha'

theorem pyMaxOpt_nonneg {l : List ℚ} {m : ℚ} (h : pyMaxOpt l = some m)
    (hl : ∀ a ∈ l, 0 ≤ a) : 0 ≤ m := by
  cases l with
  | nil => simp [pyMaxOpt] at h
  | cons x xs =>
    simp only [pyMaxOpt, Option.some.injEq] at h
    subst h
    exact le_trans (hl x (List.mem_cons_self _ _)) (le_foldl_max xs le_rfl)

theorem pyMax0_nonneg {l : List ℚ} (hl : ∀ a ∈ l, 0 ≤ a) : 0 ≤ pyMax0 l := by
  cases l with
  | nil => simp [pyMax0]
  | cons x xs =>
    exact le_trans (hl x (List.mem_cons_self _ _)) (le_foldl_max xs le_rfl)

theorem bboxWidth_nonneg (tb : ℚ × ℚ × ℚ × ℚ × ℚ) : 0 ≤ bboxWidth tb :=
  abs_nonneg _

theorem text_width_nonneg (p : Pin) (c : Canvas) (f : Font) : 0 ≤ p.text_width c f := by
  unfold Pin.text_width Pin.padding
  have habs := bboxWidth_nonneg (c.textBBox p.text f)
  linarith

theorem min_width_nonneg (s : PinSection) (c : Canvas) (f : Font) :
    0 ≤ s.min_width c f := by
  unfold PinSection.min_width
  have hl : 0 ≤ pyMax0 (s.left_pins.map (·.text_width c f)) := by
    refine pyMax0_nonneg ?_
    intro a ha
    obtain ⟨p, _, rfl⟩ := List.mem_map.mp ha
    exact text_width_nonneg p c f
  have hr : 0 ≤ pyMax0 (s.right_pins.map (·.text_width c f)) := by
    refine pyMax0_nonneg ?_
    intro a ha
    obtain ⟨p, _, rfl⟩ := List.mem_map.mp ha
    exact text_width_nonneg p c f
  have hpad : (0 : ℚ) ≤ PinSection.padding := by unfold PinSection.padding; norm_num
  cases s.name with
  | none => simp only []; linarith
  | some nm =>
    simp only []
    have habs := bboxWidth_nonneg (c.textBBox nm f)
    split
    · have := le_max_left (pyMax0 (s.left_pins.map (·.text_width c f)))
        (PinSection.padding + bboxWidth (c.textBBox nm f))
      linarith
    · have := le_max_left (pyMax0 (s.right_pins.map (·.text_width c f)))
        (PinSection.padding + bboxWidth (c.textBBox nm f))
      linarith

/-! ## Claim C3 -/

theorem sectE_min_width (f : Font) : PinSection.min_width sectE canvas0 f = 5 := by
  simp [PinSection.min_width, sectE, PinSection.left_pins, PinSection.right_pins,
    pyMax0, PinSection.padding]

theorem symW_usedWidth : Symbol.usedWidth symW canvas0 none = some 5 := by
  simp [Symbol.usedWidth, symW, pyMaxOpt, sectE_min_width]

theorem symW_boxes : Symbol.sectionBoxesAux canvas0 0 5 0 symW.sections =
    [⟨0, -15, 5, -5⟩] := by
  simp only [symW, Symbol.sectionBoxesAux]
  rw [show PinSection.drawBox sectE 0 0 5 canvas0 = ⟨0, -15, 5, -5⟩ from by
    simp [PinSection.drawBox, PinSection.toff, sectE, PinSection.rows,
      PinSection.left_pins, PinSection.right_pins, PinSection.spacing,
      PinSection.padding, Box.mk.injEq]
    norm_num]

theorem symW_draw : Symbol.draw symW 0 0 canvas0 none = some ⟨1, -14, 4, -6⟩ := by
  unfold Symbol.draw
  rw [symW_usedWidth]
  simp only [Option.some_bind]
  rw [symW_boxes]
  simp only [List.map_nil, List.foldl_nil, Option.some.injEq, Box.mk.injEq,
    Symbol.line_weight]
  norm_num

/-- C3 (counterexample): for a symbol with one (empty, unnamed) section
drawn on the zero-metrics canvas, `Symbol.draw` returns the box
`(1, -14, 4, -6)`, while the union of the section boxes (the single box
`(0, -15, 5, -5)`) inset by half the stroke weight (`3/2`) on each side
would be `(3/2, -27/2, 7/2, -13/2)` — the code insets by
`line_weight/2 - 0.5`, not by `line_weight/2`. -/
theorem c3_counterexample :
    Symbol.draw symW 0 0 canvas0 none = some ⟨1, -14, 4, -6⟩ ∧
    Symbol.sectionBoxesAux canvas0 0 5 0 symW.sections = [⟨0, -15, 5, -5⟩] ∧
    (⟨1, -14, 4, -6⟩ : Box) ≠
      Box.shrink (([] : List Box).foldl Box.union ⟨0, -15, 5, -5⟩)
        (Symbol.line_weight / 2) := by
  refine ⟨symW_draw, symW_boxes, ?_⟩
  simp only [List.foldl_nil, Box.shrink, Symbol.line_weight, ne_eq, Box.mk.injEq]
  norm_num

/-- C3 (amended): the bounding box returned by `Symbol.draw` equals the
union of its sections' bounding boxes inset by
`line_weight/2 - 0.5` (i.e. `1` for the fixed stroke weight 3) on each
of the four sides — not by `line_weight/2`. -/
theorem c3_amended (sym : Symbol) (x y : ℚ) (c : Canvas) (sw : Option ℚ) (box : Box)
    (w : ℚ) (b : Box) (bs : List Box)
    (hw : sym.usedWidth c sw = some w)
    (hsb : Symbol.sectionBoxesAux c x w y sym.sections = b :: bs)
    (h : Symbol.draw sym x y c sw = some box) :
    box = Box.shrink (bs.foldl Box.union b) (Symbol.line_weight / 2 - 1 / 2) := by
  unfold Symbol.draw at h
  rw [hw] at h
  simp only [Option.some_bind] at h
  rw [hsb] at h
  simp only [Option.some.injEq] at h
  rw [← h, foldl_union_eq]
  rfl

/-- C3 (amended, witness): the amended inset equation instantiated on
the one-section symbol drawn on the zero-metrics canvas. -/
theorem c3_amended_witness :
    (⟨1, -14, 4, -6⟩ : Box) =
      Box.shrink (([] : List Box).foldl Box.union ⟨0, -15, 5, -5⟩)
        (Symbol.line_weight / 2 - 1 / 2) :=
  c3_amended symW 0 0 canvas0 none ⟨1, -14, 4, -6⟩ 5 ⟨0, -15, 5, -5⟩ []
    symW_usedWidth symW_boxes symW_draw

/-! ## Claim C5 -/

/-- C5: the shared width computed by `HdlSymbol.draw` is positive, is an
exact multiple of the configured width quantum `width_steps` (it equals
its own floor-quotient times the quantum), and dominates the
`min_width` of every section of every contained symbol. -/
theorem c5_shared_width (hs : HdlSymbol) (c : Canvas) (w' : ℚ)
    (hpos : 0 < hs.width_steps)
    (h : hs.sharedWidth c = some w') :
    0 < w' ∧ w' = (⌊w' / hs.width_steps⌋ : ℚ) * hs.width_steps ∧
    ∀ sym ∈ hs.symbols, ∀ s ∈ sym.sections, s.min_width c c.defFont ≤ w' := by
  unfold HdlSymbol.sharedWidth at h
  cases hM : pyMaxOpt ((hs.symbols.map
      (fun sym => sym.sections.map (·.min_width c c.defFont))).flatten) with
  | none => rw [hM] at h; simp at h
  | some w =>
    rw [hM] at h
    simp only [Option.map_some', Option.some.injEq] at h
    have hwnn : 0 ≤ w := by
      refine pyMaxOpt_nonneg hM ?_
      intro a ha
      simp only [List.mem_flatten, List.mem_map] at ha
      obtain ⟨l, ⟨sym, _, rfl⟩, ha⟩ := ha
      obtain ⟨s, _, rfl⟩ := List.mem_map.mp ha
      exact min_width_nonneg s c c.defFont
    have hfl : (0 : ℚ) ≤ (⌊w / hs.width_steps⌋ : ℚ) := by
      have h0 : (0 : ℤ) ≤ ⌊w / hs.width_steps⌋ :=
        Int.floor_nonneg.mpr (div_nonneg hwnn (le_of_lt hpos))
      exact_mod_cast h0
    have hlt : w < ((⌊w / hs.width_steps⌋ : ℚ) + 1) * hs.width_steps := by
      have h1 : w / hs.width_steps < (⌊w / hs.width_steps⌋ : ℚ) + 1 :=
        Int.lt_floor_add_one _
      calc w = (w / hs.width_steps) * hs.width_steps :=
            (div_mul_cancel₀ w (ne_of_gt hpos)).symm
        _ < ((⌊w / hs.width_steps⌋ : ℚ) + 1) * hs.width_steps :=
            mul_lt_mul_of_pos_right h1 hpos
    have hw'pos : 0 < w' := by
      rw [← h]
      have h2 : (0 : ℚ) < (⌊w / hs.width_steps⌋ : ℚ) + 1 := by linarith
      exact mul_pos h2 hpos
    refine ⟨hw'pos, ?_, ?_⟩
    · have hdiv : w' / hs.width_steps = (⌊w / hs.width_steps⌋ : ℚ) + 1 := by
        rw [← h]
        exact mul_div_cancel_right₀ _ (ne_of_gt hpos)
      rw [hdiv]
      have hfloor : (⌊((⌊w / hs.width_steps⌋ : ℚ) + 1)⌋ : ℚ) =
          (⌊w / hs.width_steps⌋ : ℚ) + 1 := by
        rw [show ((⌊w / hs.width_steps⌋ : ℚ) + 1) =
            ((⌊w / hs.width_steps⌋ + 1 : ℤ) : ℚ) by push_cast; ring]
        rw [Int.floor_intCast]
      rw [hfloor, ← h]
    · intro sym hsym s hss
      have hmem : s.min_width c c.defFont ∈ (hs.symbols.map
          (fun sym => sym.sections.map (·.min_width c c.defFont))).flatten := by
        simp only [List.mem_flatten, List.mem_map]
        exact ⟨sym.sections.map (·.min_width c c.defFont), ⟨sym, hsym, rfl⟩,
          List.mem_map.mpr ⟨s, hss, rfl⟩⟩
      have hle := pyMaxOpt_le hM _ hmem
      rw [← h]
      linarith

theorem hsW_sharedWidth : HdlSymbol.sharedWidth hsW canvas0 = some 20 := by
  simp only [HdlSymbol.sharedWidth, hsW, symW, List.map_cons, List.map_nil,
    sectE_min_width, List.flatten, List.append_nil, pyMaxOpt, List.foldl_nil,
    Option.map_some', Option.some.injEq]
  norm_num

/-- C5 (witness): the shared width of the one-empty-section symbol on
the zero-metrics canvas is `20`: positive, a multiple of the quantum
`20`, and at least the section's `min_width` (which is `5`). -/
theorem c5_witness :
    (0 : ℚ) < 20 ∧
    (20 : ℚ) = (⌊(20 : ℚ) / hsW.width_steps⌋ : ℚ) * hsW.width_steps ∧
    PinSection.min_width sectE canvas0 canvas0.defFont ≤ 20 := by
  have H := c5_shared_width hsW canvas0 20 (by norm_num [hsW]) hsW_sharedWidth
  exact ⟨H.1, H.2.1, H.2.2 symW (by simp [hsW]) sectE (by simp [symW])⟩

/-! ## Claim C2 -/

/-- C2 (counterexample): for a component with zero ports and zero
generics, `make_symbol` yields an `HdlSymbol` with no symbols, and its
draw operation **fails** (the `max()` over an empty sequence on line
300 raises `ValueError`, modelled by `none`) instead of drawing
nothing. -/
theorem c2_counterexample :
    make_symbol pal0 compEmpty false false = some ⟨none, [], 10, 20⟩ ∧
    HdlSymbol.draw ⟨none, [], 10, 20⟩ 0 0 canvas0 = none :=
  ⟨by decide, by decide⟩

/-- C2 (amended): for a component with zero ports and zero generics,
`make_symbol` produces an `HdlSymbol` with no symbols whose draw
operation raises (returns `none`); for a component with zero ports and
at least one generic, the `HdlSymbol` contains exactly the generics
Symbol and no ports block. -/
theorem c2_amended (pal : Palette) (comp : Component) (t nt : Bool) (x y : ℚ) (c : Canvas) :
    (comp.ports = [] → comp.generics = [] →
      make_symbol pal comp t nt =
        some ⟨if t then some comp.name else none, [], 10, 20⟩ ∧
      HdlSymbol.draw ⟨if t then some comp.name else none, [], 10, 20⟩ x y c = none) ∧
    (comp.ports = [] → comp.generics ≠ [] →
      ∀ gsym, genericsBlock pal comp.generics nt = some gsym →
        make_symbol pal comp t nt =
          some ⟨if t then some comp.name else none, [gsym], 10, 20⟩) := by
  constructor
  · intro hp hg
    constructor
    · unfold make_symbol
      rw [hp, hg]
      rfl
    · rfl
  · intro hp hg gsym hgs
    unfold make_symbol
    rw [hp, hgs]
    rw [if_neg (show ¬ comp.generics.isEmpty = true by
      simpa [List.isEmpty_iff] using hg)]
    rfl

/-- C2 (witness): the zero-ports/one-generic component yields exactly
the generics Symbol; the empty component's `HdlSymbol` draw fails. -/
theorem c2_witness :
    make_symbol pal0 compGen false false = some ⟨none, [gsymW], 10, 20⟩ ∧
    HdlSymbol.draw ⟨none, [], 10, 20⟩ 0 0 canvas0 = none := by
  have H := c2_amended pal0 compGen false false 0 0 canvas0
  have H2 := c2_amended pal0 compEmpty false false 0 0 canvas0
  exact ⟨H.2 rfl (by decide) gsymW (by decide), (H2.1 rfl rfl).2⟩

/-! ## Partition lemmas (`make_symbol`'s port sectioning) -/

theorem pieceStart_zero (S : List (Option String × List Parameter)) :
    pieceStart S 0 = 0 := rfl

theorem pieceStart_cons_succ (pc : Option String × List Parameter)
    (S : List (Option String × List Parameter)) (k : ℕ) :
    pieceStart (pc :: S) (k + 1) = pc.2.length + pieceStart S k := by
  simp [pieceStart, List.take_succ_cons]

theorem splitRun_cons (m : ℕ → Option String) (i : ℕ) (p : Parameter)
    (ps : List Parameter) :
    splitRun m i (p :: ps) =
      match m i with
      | some lbl => ([], (some lbl, p :: (splitRun m (i + 1) ps).1) ::
          (splitRun m (i + 1) ps).2)
      | none => (p :: (splitRun m (i + 1) ps).1, (splitRun m (i + 1) ps).2) := rfl

theorem msLoop_acc (m : ℕ → Option String) :
    ∀ (ps : List Parameter) (i : ℕ) (sname : Option String) (cur : List Parameter)
      (acc : List (Option String × List Parameter)),
      msLoop m i sname cur acc ps = acc ++ gLoop m i sname cur ps := by
  intro ps
  induction ps with
  | nil =>
    intro i sname cur acc
    rcases hc : cur.isEmpty <;> simp [msLoop, gLoop, hc]
  | cons p ps ih =>
    intro i sname cur acc
    simp only [msLoop, gLoop]
    by_cases hg : (m i).isSome = true ∧ cur ≠ []
    · rw [if_pos hg, if_pos hg, ih]
      simp
    · rw [if_neg hg, if_neg hg, ih]

theorem gLoop_splitRun (m : ℕ → Option String) :
    ∀ (ps : List Parameter) (i : ℕ) (sname : Option String) (cur : List Parameter),
      cur ≠ [] →
      gLoop m i sname cur ps =
        (sname, cur ++ (splitRun m i ps).1) :: (splitRun m i ps).2 := by
  intro ps
  induction ps with
  | nil =>
    intro i sname cur hc
    have hc' : cur.isEmpty = false := by simpa [List.isEmpty_iff] using hc
    simp [gLoop, splitRun, hc']
  | cons p ps ih =>
    intro i sname cur hc
    simp only [gLoop]
    rw [splitRun_cons]
    cases hmi : m i with
    | some lbl =>
      rw [if_pos ⟨by simp, hc⟩]
      rw [ih (i + 1) (some lbl) [p] (by simp)]
      simp
    | none =>
      rw [if_neg (by simp)]
      rw [ih (i + 1) sname (cur ++ [p]) (by simp)]
      simp

theorem make_sections_nil (m : ℕ → Option String) : make_sections m [] = [] := rfl

theorem make_sections_cons (m : ℕ → Option String) (p : Parameter) (ps : List Parameter) :
    make_sections m (p :: ps) =
      (m 0, p :: (splitRun m 1 ps).1) :: (splitRun m 1 ps).2 := by
  unfold make_sections
  rw [show msLoop m 0 (m 0) [] [] (p :: ps) = msLoop m 1 (m 0) [p] [] ps from by
    simp only [msLoop]
    rw [if_neg (fun h => h.2 rfl)]
    rfl]
  rw [msLoop_acc]
  rw [gLoop_splitRun m ps 1 (m 0) [p] (by simp)]
  rfl

theorem splitRun_flatten (m : ℕ → Option String) :
    ∀ (ps : List Parameter) (i : ℕ),
      (splitRun m i ps).1 ++ ((splitRun m i ps).2.map Prod.snd).flatten = ps := by
  intro ps
  induction ps with
  | nil => intro i; rfl
  | cons p ps ih =>
    intro i
    rw [splitRun_cons]
    cases hmi : m i with
    | some lbl => simp [ih (i + 1)]
    | none => simp [ih (i + 1)]

theorem splitRun_nonempty (m : ℕ → Option String) :
    ∀ (ps : List Parameter) (i : ℕ) (pc : Option String × List Parameter),
      pc ∈ (splitRun m i ps).2 → pc.2 ≠ [] := by
  intro ps
  induction ps with
  | nil => intro i pc h; simp [splitRun] at h
  | cons p ps ih =>
    intro i pc h
    rw [splitRun_cons] at h
    cases hmi : m i with
    | some lbl =>
      rw [hmi] at h
      rcases List.mem_cons.mp h with rfl | h'
      · simp
      · exact ih (i + 1) pc h'
    | none =>
      rw [hmi] at h
      exact ih (i + 1) pc h

theorem splitRun_labels (m : ℕ → Option String) :
    ∀ (ps : List Parameter) (i k : ℕ) (pc : Option String × List Parameter),
      (splitRun m i ps).2.get? k = some pc →
      (m (i + (splitRun m i ps).1.length + pieceStart (splitRun m i ps).2 k)).isSome
        = true ∧
      pc.1 = m (i + (splitRun m i ps).1.length + pieceStart (splitRun m i ps).2 k) := by
  intro ps
  induction ps with
  | nil => intro i k pc h; simp [splitRun] at h
  | cons p ps ih =>
    intro i k pc h
    cases hmi : m i with
    | some lbl =>
      have hsp : splitRun m i (p :: ps) =
          ([], (some lbl, p :: (splitRun m (i + 1) ps).1) ::
            (splitRun m (i + 1) ps).2) := by
        rw [splitRun_cons, hmi]
      rw [hsp] at h ⊢
      cases k with
      | zero =>
        simp only [List.get?] at h
        obtain rfl : (some lbl, p :: (splitRun m (i + 1) ps).1) = pc := by
          injection h
        have hpos : i + ([] : List Parameter).length +
            pieceStart ((some lbl, p :: (splitRun m (i + 1) ps).1) ::
              (splitRun m (i + 1) ps).2) 0 = i := by
          simp [pieceStart]
        rw [hpos, hmi]
        exact ⟨rfl, rfl⟩
      | succ k =>
        simp only [List.get?] at h
        obtain ⟨hs, hlbl⟩ := ih (i + 1) k pc h
        have hpos : i + ([] : List Parameter).length +
            pieceStart ((some lbl, p :: (splitRun m (i + 1) ps).1) ::
              (splitRun m (i + 1) ps).2) (k + 1) =
            (i + 1) + (splitRun m (i + 1) ps).1.length +
              pieceStart (splitRun m (i + 1) ps).2 k := by
          rw [pieceStart_cons_succ]
          simp only [List.length_cons, List.length_nil]
          omega
        rw [hpos]
        exact ⟨hs, hlbl⟩
    | none =>
      have hsp : splitRun m i (p :: ps) =
          (p :: (splitRun m (i + 1) ps).1, (splitRun m (i + 1) ps).2) := by
        rw [splitRun_cons, hmi]
      rw [hsp] at h ⊢
      obtain ⟨hs, hlbl⟩ := ih (i + 1) k pc h
      have hpos : i + (p :: (splitRun m (i + 1) ps).1).length +
          pieceStart (splitRun m (i + 1) ps).2 k =
          (i + 1) + (splitRun m (i + 1) ps).1.length +
            pieceStart (splitRun m (i + 1) ps).2 k := by
        simp only [List.length_cons]
        omega
      rw [hpos]
      exact ⟨hs, hlbl⟩

theorem splitRun_exact (m : ℕ → Option String) :
    ∀ (ps : List Parameter) (i j : ℕ), i ≤ j → j < i + ps.length →
      ((m j).isSome = true ↔
        ∃ k, k < (splitRun m i ps).2.length ∧
          j = i + (splitRun m i ps).1.length + pieceStart (splitRun m i ps).2 k) := by
  intro ps
  induction ps with
  | nil =>
    intro i j h1 h2
    simp only [List.length_nil] at h2
    exact absurd h1 (by omega)
  | cons p ps ih =>
    intro i j h1 h2
    cases hmi : m i with
    | some lbl =>
      have hsp : splitRun m i (p :: ps) =
          ([], (some lbl, p :: (splitRun m (i + 1) ps).1) ::
            (splitRun m (i + 1) ps).2) := by
        rw [splitRun_cons, hmi]
      rw [hsp]
      by_cases hj : j = i
      · subst hj
        constructor
        · intro _
          refine ⟨0, by simp, ?_⟩
          simp [pieceStart]
        · intro _
          rw [hmi]
          rfl
      · have h1' : i + 1 ≤ j := by omega
        have h2' : j < (i + 1) + ps.length := by
          simp only [List.length_cons] at h2
          omega
        rw [ih (i + 1) j h1' h2']
        constructor
        · rintro ⟨k, hk, hkeq⟩
          refine ⟨k + 1, by simpa using hk, ?_⟩
          rw [pieceStart_cons_succ]
          simp only [List.length_cons, List.length_nil]
          omega
        · rintro ⟨k, hk, hkeq⟩
          cases k with
          | zero =>
            exfalso
            simp [pieceStart] at hkeq
            omega
          | succ k =>
            refine ⟨k, by simpa using hk, ?_⟩
            rw [pieceStart_cons_succ] at hkeq
            simp only [List.length_cons, List.length_nil] at hkeq
            omega
    | none =>
      have hsp : splitRun m i (p :: ps) =
          (p :: (splitRun m (i + 1) ps).1, (splitRun m (i + 1) ps).2) := by
        rw [splitRun_cons, hmi]
      rw [hsp]
      by_cases hj : j = i
      · subst hj
        constructor
        · intro hs
          rw [hmi] at hs
          simp at hs
        · rintro ⟨k, hk, hkeq⟩
          exfalso
          simp only [List.length_cons] at hkeq
          omega
      · have h1' : i + 1 ≤ j := by omega
        have h2' : j < (i + 1) + ps.length := by
          simp only [List.length_cons] at h2
          omega
        rw [ih (i + 1) j h1' h2']
        constructor
        · rintro ⟨k, hk, hkeq⟩
          exact ⟨k, hk, by simp only [List.length_cons]; omega⟩
        · rintro ⟨k, hk, hkeq⟩
          exact ⟨k, hk, by simp only [List.length_cons] at hkeq; omega⟩

/-! ## Claim C8 -/

/-- C8: the port partition computed by `make_symbol` preserves the
ordered port sequence exactly (the concatenation of the pieces is the
original list), every piece is nonempty, the first piece's label is the
marker at index 0 (or `none`), every later piece starts at an index
carrying a marker and is labeled by that marker, and conversely every
marked index `0 < i < n` is the start of some later piece. -/
theorem c8_partition (m : ℕ → Option String) (ports : List Parameter)
    (S : List (Option String × List Parameter)) (hS : S = make_sections m ports) :
    ((S.map Prod.snd).flatten = ports) ∧
    (∀ pc ∈ S, pc.2 ≠ []) ∧
    (∀ h0 : 0 < S.length, (S.get ⟨0, h0⟩).1 = m 0) ∧
    (∀ k (hk : k < S.length), 0 < k →
      (m (pieceStart S k)).isSome = true ∧ (S.get ⟨k, hk⟩).1 = m (pieceStart S k)) ∧
    (∀ i, 0 < i → i < ports.length →
      ((m i).isSome = true ↔ ∃ k, k < S.length ∧ 0 < k ∧ pieceStart S k = i)) := by
  cases ports with
  | nil =>
    subst hS
    rw [make_sections_nil]
    refine ⟨rfl, by simp, by simp, by simp, ?_⟩
    intro i _ hi
    simp at hi
  | cons p ps =>
    subst hS
    rw [make_sections_cons]
    refine ⟨?_, ?_, ?_, ?_, ?_⟩
    · simp only [List.map_cons, List.flatten_cons, List.cons_append]
      rw [splitRun_flatten m ps 1]
    · intro pc hpc
      rcases List.mem_cons.mp hpc with rfl | hpc'
      · simp
      · exact splitRun_nonempty m ps 1 pc hpc'
    · intro h0
      rfl
    · intro k hk hkpos
      obtain ⟨k', rfl⟩ : ∃ k', k = k' + 1 := ⟨k - 1, by omega⟩
      have hk' : k' < (splitRun m 1 ps).2.length := by simpa using hk
      have hg : (splitRun m 1 ps).2.get? k' =
          some ((splitRun m 1 ps).2.get ⟨k', hk'⟩) := List.get?_eq_get hk'
      obtain ⟨hs, hlbl⟩ := splitRun_labels m ps 1 k' _ hg
      have hpos : pieceStart ((m 0, p :: (splitRun m 1 ps).1) ::
          (splitRun m 1 ps).2) (k' + 1) =
          1 + (splitRun m 1 ps).1.length + pieceStart (splitRun m 1 ps).2 k' := by
        rw [pieceStart_cons_succ]
        simp only [List.length_cons]
        omega
      rw [hpos]
      refine ⟨hs, ?_⟩
      rw [show ((m 0, p :: (splitRun m 1 ps).1) ::
          (splitRun m 1 ps).2).get ⟨k' + 1, hk⟩ =
          (splitRun m 1 ps).2.get ⟨k', hk'⟩ from rfl]
      exact hlbl
    · intro i hi0 hin
      have h1 : 1 ≤ i := hi0
      have h2 : i < 1 + ps.length := by
        simp only [List.length_cons] at hin
        omega
      rw [splitRun_exact m ps 1 i h1 h2]
      constructor
      · rintro ⟨k, hk, hkeq⟩
        refine ⟨k + 1, by simpa using hk, Nat.succ_pos k, ?_⟩
        rw [pieceStart_cons_succ]
        simp only [List.length_cons]
        omega
      · rintro ⟨k, hk, hkpos, hkeq⟩
        obtain ⟨k', rfl⟩ : ∃ k', k = k' + 1 := ⟨k - 1, by omega⟩
        refine ⟨k', by simpa using hk, ?_⟩
        rw [pieceStart_cons_succ] at hkeq
        simp only [List.length_cons] at hkeq
        omega

/-- C8 (witness): a two-port component with a marker at index 1 splits
into two pieces whose concatenation is the original port list, with the
second piece labeled by the marker found at its start index. -/
theorem c8_witness :
    (SW8.map Prod.snd).flatten = portsW8 ∧
    (mW8 (pieceStart SW8 1)).isSome = true ∧
    (SW8.get ⟨1, by decide⟩).1 = mW8 (pieceStart SW8 1) := by
  have hS : SW8 = make_sections mW8 portsW8 := by decide
  have H := c8_partition mW8 portsW8 SW8 hS
  exact ⟨H.1, (H.2.2.2.1 1 (by decide) (by decide)).1,
    (H.2.2.2.1 1 (by decide) (by decide)).2⟩

end Symbolator
